import Mathlib

set_option maxHeartbeats 1000000

/-! Verification development for the austin-python repository.

The definitions below are shallow embeddings of `src/austin/format/mojo.py`,
`src/austin/events.py` and `src/austin/stats.py`.  Machine bytes are modelled
as `Nat`; the bit operations of the source are rendered arithmetically, using
the exact correspondences `b & 0x3F = b % 64`, `b & 0x7F = b % 128`,
`b & 0x40 != 0 ↔ b / 64 % 2 = 1` (bit 6), `b & 0x80 != 0 ↔ b / 128 % 2 = 1`
(bit 7), `n >> k = n / 2 ^ k`, and `x | y = x + y` whenever the two operands
occupy disjoint bit ranges (which is the case at every `|` of the varint
codec: flag bits 0x40/0x80 are or-ed onto values already reduced below them,
and the decoder's accumulator always stays below the shift it ors into).
Python strings are modelled as their UTF-8 byte lists on the MOJO side,
where null-terminated byte encodings matter, and as Lean strings on the
statistics side, where they are opaque dictionary keys.  Python exceptions
are modelled as `Option`/`Except` error values; a Python dict is an
insertion-ordered association list. -/

namespace AustinPy

/-- Python dict read `d[k]` / `d.get(k)`: the first (unique, for genuine
dicts) binding of the key, `none` when absent. -/
def dictFind {α β : Type} [DecidableEq α] : List (α × β) → α → Option β
  | [], _ => none
  | (k, v) :: rest, key => if k = key then some v else dictFind rest key

/-- Python dict write `d[k] = v`: overwrite in place, preserving insertion
order, else append at the end. -/
def dictSet {α β : Type} [DecidableEq α] : List (α × β) → α → β → List (α × β)
  | [], key, v => [(key, v)]
  | (k, w) :: rest, key, v =>
    if k = key then (k, v) :: rest else (k, w) :: dictSet rest key v

namespace Mojo

/-- Byte string: the UTF-8 bytes of a Python `str` (or a Python `bytes`). -/
abbrev ByteStr := List Nat

/-- Tail loop of `to_varint` (mojo.py lines 38-43):
`while n: b = n & 0x7F; n >>= 7; if n: b |= 0x80; result.append(b)`. -/
def to_varint_tail (n : Nat) : List Nat :=
  if n = 0 then []
  else ((n % 128) + if n / 128 = 0 then 0 else 128) :: to_varint_tail (n / 128)
  termination_by n
  decreasing_by omega

/-- `to_varint` (mojo.py lines 21-45): first byte carries the sign flag 0x40,
the low 6 magnitude bits and a continuation flag 0x80; the remaining
magnitude follows in 7-bit groups. -/
def to_varint (n : Int) : List Nat :=
  let m := n.natAbs
  (((if n < 0 then 64 else 0) + m % 64) + if m / 64 = 0 then 0 else 128)
    :: to_varint_tail (m / 64)

/-- Continuation loop of the `int_reader` generator (mojo.py lines 263-266):
`while b & 0x80: (b,) = yield None; n |= (b & 0x7F) << s; s += 7`.  The
decoder state machine is embedded as a function consuming a byte list and
returning the unconsumed tail; `none` models end-of-stream mid-integer. -/
def int_reader_cont (n s : Nat) : List Nat → Option (Nat × List Nat)
  | [] => none
  | b :: rest =>
    let n' := n + (b % 128) * 2 ^ s
    if b / 128 % 2 = 1 then int_reader_cont n' (s + 7) rest else some (n', rest)

/-- One full round of the `int_reader` generator (mojo.py lines 256-267) run
against a byte list: `n |= b & 0x3F; sign = b & 0x40; while b & 0x80: ...;
yield -n if sign else n`.  Returns the decoded integer and the unconsumed
bytes. -/
def read_int : List Nat → Option (Int × List Nat)
  | [] => none
  | b :: rest =>
    let first :=
      if b / 128 % 2 = 1 then int_reader_cont (b % 64) 6 rest
      else some (b % 64, rest)
    match first with
    | none => none
    | some (n, r) => some (if b / 64 % 2 = 1 then -(n : Int) else (n : Int), r)


/-- The str_reader generator (mojo.py lines 270-282) run against a byte
list: accumulate bytes until a NUL terminator.  The source stores content
bytes into a fixed `bytearray(1024)` buffer at index i, so the 1025th
content byte raises IndexError (modelled none); end-of-stream mid-string is
likewise none. -/
def str_read_aux (acc : ByteStr) : List Nat → Option (ByteStr × List Nat)
  | [] => none
  | b :: rest =>
    if b = 0 then some (acc.reverse, rest)
    else if acc.length = 1024 then none
    else str_read_aux (b :: acc) rest

/-- MojoStreamReader.read_string (mojo.py lines 507-511): one full round of
str_reader, returning the decoded string and the unconsumed bytes. -/
def read_str (bs : List Nat) : Option (ByteStr × List Nat) :=
  str_read_aux [] bs

/-- MojoString (mojo.py lines 139-146). -/
structure MojoString where
  key : Int
  value : ByteStr
deriving DecidableEq, Repr

/-- MojoFrame (mojo.py lines 187-199).  The writer always stores plain
integers in the three optional location fields (`or 0`); the version-1
reader stores None. -/
structure MojoFrame where
  key : Int
  filename : MojoString
  scope : MojoString
  line : Int
  line_end : Option Int
  column : Option Int
  column_end : Option Int
deriving DecidableEq, Repr

/-- EMPTY (mojo.py line 229): MojoString(0, ""). -/
def EMPTY : MojoString := ⟨0, []⟩

/-- UNKNOWN (mojo.py line 230): MojoString(1, "<unknown>") as UTF-8 bytes. -/
def UNKNOWN : MojoString := ⟨1, [60, 117, 110, 107, 110, 111, 119, 110, 62]⟩

/-- AustinFrame (events.py lines 13-22); strings as UTF-8 bytes. -/
structure AustinFrame where
  filename : ByteStr
  function : ByteStr
  line : Int
  line_end : Option Int
  column : Option Int
  column_end : Option Int
deriving DecidableEq, Repr

/-- AustinMetrics (events.py lines 25-29). -/
structure AustinMetrics where
  time : Option Int
  memory : Option Int
deriving DecidableEq, Repr

/-- AustinMetadata (events.py lines 39-44). -/
structure AustinMetadata where
  name : ByteStr
  value : ByteStr
deriving DecidableEq, Repr

/-- AustinSample (events.py lines 47-66). -/
structure AustinSample where
  pid : Int
  iid : Option Int
  thread : ByteStr
  metrics : AustinMetrics
  frames : Option (List AustinFrame)
  gc : Option Bool
  idle : Option Bool
deriving DecidableEq, Repr

/-- AustinEvent (events.py): the high-level events a MOJO stream encodes. -/
inductive AustinEvent
  | metadata (m : AustinMetadata)
  | sample (s : AustinSample)
deriving DecidableEq, Repr

/-- _RunningSample (mojo.py lines 245-253); the metrics dict has at most the
two keys time/memory, stored as two optional slots. -/
structure RunningSample where
  pid : Int
  thread : ByteStr
  iid : Option Int
  frames : List MojoFrame
  mtime : Option Int
  mmemory : Option Int
  gc : Option Bool
  idle : Option Bool
deriving DecidableEq, Repr

/-- Decoder state of BaseMojoStreamReader (mojo.py lines 285-323): the MOJO
version from the header, the per-(pid, key) reference maps, the running
sample, the finalized samples and the metadata map. -/
structure RState where
  version : Int
  frame_map : List ((Int × Int) × MojoFrame)
  string_map : List ((Int × Int) × MojoString)
  running : Option RunningSample
  samples : List AustinSample
  metadata : List (ByteStr × ByteStr)
deriving DecidableEq, Repr

/-- The fresh reader state after the header, for a given version. -/
def initR (v : Int) : RState := ⟨v, [], [], none, [], []⟩

/-- BaseMojoStreamReader._lookup_string (mojo.py lines 402-403):
`UNKNOWN if index == 1 else self._string_map[self.ref(index)]`; the KeyError
on an unregistered (pid, index) is the none case. -/
def lookup_string (smap : List ((Int × Int) × MojoString)) (pid index : Int) :
    Option MojoString :=
  if index = 1 then some UNKNOWN else dictFind smap (pid, index)

/-- Frame conversion done inside _finalize_sample (mojo.py lines 371-381). -/
def mojoFrameToAustin (mf : MojoFrame) : AustinFrame :=
  ⟨mf.filename.value, mf.scope.value, mf.line, mf.line_end, mf.column, mf.column_end⟩

/-- BaseMojoStreamReader._finalize_sample (mojo.py lines 356-391): build the
AustinSample from the running sample (frames become None when the list is
empty, per `if self._running_sample.frames else None`). -/
def finalize_sample (r : RunningSample) : AustinSample :=
  { pid := r.pid, iid := r.iid, thread := r.thread,
    metrics := ⟨r.mtime, r.mmemory⟩,
    frames := if r.frames = [] then none else some (r.frames.map mojoFrameToAustin),
    gc := r.gc, idle := r.idle }

/-- What MojoStreamReader.__iter__ needs to know about a parsed event: the
isinstance checks on MojoMetadata and MojoStack (mojo.py lines 645-650). -/
inductive PEvent
  | metadataEv (name value : ByteStr)
  | stackEv
  | otherEv
deriving DecidableEq, Repr

/-- Outcome of MojoStreamReader.parse_event (mojo.py lines 595-613): eof is
the clean return None on a ValueError at the first (tag) byte; fail is a
fatal MojoParseError/ValueError while handling a tag. -/
inductive POut
  | eof
  | fail
  | ok (e : PEvent) (st : RState) (rest : List Nat)
deriving DecidableEq, Repr

/-- parse_metadata (mojo.py lines 513-516) with get_metadata (348-354). -/
def parse_metadata_core (st : RState) (bs : List Nat) :
    Option ((ByteStr × ByteStr) × RState × List Nat) := do
  let (name, bs1) ← read_str bs
  let (value, bs2) ← read_str bs1
  some ((name, value), { st with metadata := dictSet st.metadata name value }, bs2)

/-- parse_stack (mojo.py lines 518-526) with get_stack (393-400): read pid,
an interpreter id only when version >= 3, and the thread name; finalize any
running sample and start a fresh one. -/
def parse_stack_core (st : RState) (bs : List Nat) : Option (RState × List Nat) := do
  let (pid, bs1) ← read_int bs
  let (iid, bs2) ← (if st.version ≥ 3 then
      (read_int bs1).map (fun pr => (some pr.1, pr.2))
    else some ((none : Option Int), bs1))
  let (thread, bs3) ← read_str bs2
  let samples' := match st.running with
    | some r => st.samples ++ [finalize_sample r]
    | none => st.samples
  some ({ st with
    running := some (RunningSample.mk pid thread iid [] none none none none),
    samples := samples' }, bs3)

/-- parse_frame (mojo.py lines 528-545) with get_frame (405-426): read the
key, the two string indices and the line; under version 1 the three end
location fields are None and no bytes are read for them, otherwise they are
read as varints.  get_frame resolves both strings (running sample required
by self.ref) and registers the frame under (pid, key). -/
def parse_frame_core (st : RState) (bs : List Nat) : Option (RState × List Nat) := do
  let (key, bs1) ← read_int bs
  let (fidx, bs2) ← read_int bs1
  let (sidx, bs3) ← read_int bs2
  let (line, bs4) ← read_int bs3
  let (locs, bs5) ← (if st.version = 1 then
      some (((none : Option Int), (none : Option Int), (none : Option Int)), bs4)
    else do
      let (le, c1) ← read_int bs4
      let (col, c2) ← read_int c1
      let (ce, c3) ← read_int c2
      some ((some le, some col, some ce), c3))
  let r ← st.running
  let fname ← lookup_string st.string_map r.pid fidx
  let sname ← lookup_string st.string_map r.pid sidx
  let mf := MojoFrame.mk key fname sname line locs.1 locs.2.1 locs.2.2
  some ({ st with frame_map := dictSet st.frame_map (r.pid, key) mf }, bs5)

/-- parse_frame_ref (mojo.py lines 547-550) with get_frame_ref (428-435):
look up the frame for (pid, ref) and append it to the running sample. -/
def parse_frame_ref_core (st : RState) (bs : List Nat) : Option (RState × List Nat) := do
  let (ref, bs1) ← read_int bs
  let r ← st.running
  let frame ← dictFind st.frame_map (r.pid, ref)
  some ({ st with running := some { r with frames := r.frames ++ [frame] } }, bs1)

/-- parse_kernel_frame (mojo.py lines 552-555): reads a string, no state
change. -/
def parse_kernel_frame_core (st : RState) (bs : List Nat) : Option (RState × List Nat) := do
  let (_, bs1) ← read_str bs
  some (st, bs1)

/-- parse_time_metric / parse_memory_metric (mojo.py lines 557-568) with
_get_metric (441-447): store the value in the running sample's metric slot
for that type (last write wins). -/
def parse_metric_core (isTime : Bool) (st : RState) (bs : List Nat) :
    Option (RState × List Nat) := do
  let (v, bs1) ← read_int bs
  let r ← st.running
  some ({ st with running := some (if isTime then { r with mtime := some v }
    else { r with mmemory := some v }) }, bs1)

/-- parse_gc (mojo.py lines 580-583) with get_gc (468-473). -/
def parse_gc_core (st : RState) (bs : List Nat) : Option (RState × List Nat) := do
  let r ← st.running
  some ({ st with running := some { r with gc := some true } }, bs)

/-- parse_idle (mojo.py lines 575-578) with get_idle (461-466). -/
def parse_idle_core (st : RState) (bs : List Nat) : Option (RState × List Nat) := do
  let r ← st.running
  some ({ st with running := some { r with idle := some true } }, bs)

/-- parse_string (mojo.py lines 585-588) with get_string (475-479):
register the string under (pid, key); self.ref requires a running sample. -/
def parse_string_core (st : RState) (bs : List Nat) : Option (RState × List Nat) := do
  let (key, bs1) ← read_int bs
  let (value, bs2) ← read_str bs1
  let r ← st.running
  let ms := MojoString.mk key value
  some ({ st with string_map := dictSet st.string_map (r.pid, key) ms }, bs2)

/-- parse_string_ref (mojo.py lines 590-593) with get_string_ref (481-483):
a plain map lookup with no UNKNOWN special case, no state change. -/
def parse_string_ref_core (st : RState) (bs : List Nat) : Option (RState × List Nat) := do
  let (key, bs1) ← read_int bs
  let r ← st.running
  let _ ← dictFind st.string_map (r.pid, key)
  some (st, bs1)

/-- Wrap a core outcome as a non-metadata, non-stack parse result. -/
def otherOf : Option (RState × List Nat) → POut
  | some (st', r) => .ok .otherEv st' r
  | none => .fail

/-- MojoStreamReader.parse_event (mojo.py lines 595-613): read the tag byte
(empty stream is the clean end), dispatch on the MojoEvents tag values
(mojo.py lines 54-69), and turn any handler exception into a fatal error;
an unhandled tag is likewise fatal. -/
def parse_event (st : RState) : List Nat → POut
  | [] => .eof
  | tag :: rest =>
    if tag = 1 then
      match parse_metadata_core st rest with
      | some ((n, v), st', r) => .ok (.metadataEv n v) st' r
      | none => .fail
    else if tag = 2 then
      match parse_stack_core st rest with
      | some (st', r) => .ok .stackEv st' r
      | none => .fail
    else if tag = 3 then otherOf (parse_frame_core st rest)
    else if tag = 4 then otherOf (some (st, rest))
    else if tag = 5 then otherOf (parse_frame_ref_core st rest)
    else if tag = 6 then otherOf (parse_kernel_frame_core st rest)
    else if tag = 7 then otherOf (parse_gc_core st rest)
    else if tag = 8 then otherOf (parse_idle_core st rest)
    else if tag = 9 then otherOf (parse_metric_core true st rest)
    else if tag = 10 then otherOf (parse_metric_core false st rest)
    else if tag = 11 then otherOf (parse_string_core st rest)
    else if tag = 12 then otherOf (parse_string_ref_core st rest)
    else .fail

/-- The events MojoStreamReader.__iter__ yields for one parsed event
(mojo.py lines 645-650): each MojoMetadata yields an AustinMetadata; each
MojoStack yields samples[-1] when samples is nonempty; nothing else yields. -/
def emit_of (e : PEvent) (st' : RState) : List AustinEvent :=
  match e with
  | .metadataEv n v => [.metadata ⟨n, v⟩]
  | .stackEv =>
    match st'.samples.getLast? with
    | some x => [.sample x]
    | none => []
  | .otherEv => []

/-- MojoStreamReader.__iter__ (mojo.py lines 643-652): iterate parse_event
to the end of the stream, collecting the yielded events; at end of stream
finalize and yield the running sample if any.  none models a fatal decode
error.  Each successful parse_event consumes at least the tag byte, so fuel
exceeding the byte count never runs out. -/
def iter_events_fuel : Nat → RState → List Nat → Option (List AustinEvent)
  | 0, _, _ => none
  | fuel + 1, st, bs =>
    match parse_event st bs with
    | .eof =>
      match st.running with
      | some r => some [.sample (finalize_sample r)]
      | none => some []
    | .fail => none
    | .ok e st' rest => (iter_events_fuel fuel st' rest).map (emit_of e st' ++ ·)

/-- MojoStreamReader.parse with __iter__ (mojo.py lines 615-652): check the
3-byte MOJ marker (0x4D 0x4F 0x4A), read the varint format version, then
iterate the events. -/
def decode_stream (bs : List Nat) : Option (List AustinEvent) :=
  match bs with
  | 77 :: 79 :: 74 :: rest =>
    match read_int rest with
    | none => none
    | some (v, rest') => iter_events_fuel (rest'.length + 1) (initR v) rest'
  | _ => none

/-- The samples among a list of yielded Austin events. -/
def samplesOf (es : List AustinEvent) : List AustinSample :=
  es.filterMap fun e => match e with
    | .sample s => some s
    | .metadata _ => none

/-- The writer's wire-level view of one emitted MOJO event; wire_bytes
gives its exact byte encoding per the to_bytes methods. -/
inductive Wire
  | metadataW (name value : ByteStr)
  | stackW (pid iid : Int) (tid : ByteStr)
  | stringW (key : Int) (value : ByteStr)
  | frameW (key fkey skey line line_end column column_end : Int)
  | frameRefW (key : Int)
  | gcW
  | idleW
  | metricW (isTime : Bool) (value : Int)
deriving DecidableEq, Repr

/-- to_bytes of each MOJO event dataclass (mojo.py lines 91-136 and the
metric override at 127-136): the event tag byte, then varint-encoded int
fields (object references encode their key) and null-terminated strings. -/
def wire_bytes : Wire → List Nat
  | .metadataW n v => 1 :: (n ++ [0] ++ v ++ [0])
  | .stackW pid iid tid => 2 :: (to_varint pid ++ to_varint iid ++ tid ++ [0])
  | .stringW k v => 11 :: (to_varint k ++ v ++ [0])
  | .frameW k fk sk l le c ce =>
      3 :: (to_varint k ++ to_varint fk ++ to_varint sk ++ to_varint l ++
        to_varint le ++ to_varint c ++ to_varint ce)
  | .frameRefW k => 5 :: to_varint k
  | .gcW => [7]
  | .idleW => [8]
  | .metricW isTime v => (if isTime then 9 else 10) :: to_varint v

/-- Concatenated byte encoding of a wire-event list. -/
def bytes_of_wires (ws : List Wire) : List Nat :=
  (ws.map wire_bytes).flatten

/-- Encoder state of BaseMojoStreamWriter (mojo.py lines 838-854): the
content-addressed interning tables, the metadata map with the derived mode
and gc flags, and the queue of newly created definition events. -/
structure WState where
  frames : List (AustinFrame × MojoFrame)
  strings : List (ByteStr × MojoString)
  meta : List (ByteStr × ByteStr)
  mode : Option ByteStr
  gcFlag : Bool
  new_entries : List Wire
deriving DecidableEq, Repr

/-- The fresh writer state: the string table is preseeded with EMPTY and
UNKNOWN (mojo.py lines 844-847). -/
def initW : WState := ⟨[], [([], EMPTY), (UNKNOWN.value, UNKNOWN)], [], none, false, []⟩

/-- UTF-8 bytes of the literal strings the writer compares against. -/
def strGc : ByteStr := [103, 99]
def strOn : ByteStr := [111, 110]
def strMode : ByteStr := [109, 111, 100, 101]
def strFull : ByteStr := [102, 117, 108, 108]
def strMemory : ByteStr := [109, 101, 109, 111, 114, 121]

/-- BaseMojoStreamWriter.set_metadata (mojo.py lines 856-861). -/
def set_metadata (w : WState) (name value : ByteStr) : WState :=
  let w1 := { w with meta := dictSet w.meta name value }
  if name = strGc ∧ value = strOn then { w1 with gcFlag := true }
  else if name = strMode then { w1 with mode := some value }
  else w1

/-- BaseMojoStreamWriter.resolve_string (mojo.py lines 863-869): return the
interned string, or allocate the next key (`len(self._strings)`), queue the
definition event and return the new entry. -/
def resolve_string (w : WState) (v : ByteStr) : MojoString × WState :=
  match dictFind w.strings v with
  | some s => (s, w)
  | none =>
    let s : MojoString := ⟨(w.strings.length : Int), v⟩
    (s, { w with strings := dictSet w.strings v s,
                 new_entries := w.new_entries ++ [.stringW s.key v] })

/-- BaseMojoStreamWriter.resolve_frame (mojo.py lines 871-885): return the
interned frame, or allocate the next key (`len(self._frames)`), resolve the
two strings, store absent end locations as 0 (`or 0`), queue the definition
event and return the new entry. -/
def resolve_frame (w : WState) (f : AustinFrame) : MojoFrame × WState :=
  match dictFind w.frames f with
  | some mf => (mf, w)
  | none =>
    let key : Int := (w.frames.length : Int)
    let (fs, w1) := resolve_string w f.filename
    let (ss, w2) := resolve_string w1 f.function
    let mf : MojoFrame := ⟨key, fs, ss, f.line,
      some (f.line_end.getD 0), some (f.column.getD 0), some (f.column_end.getD 0)⟩
    (mf, { w2 with frames := dictSet w2.frames f mf,
                   new_entries := w2.new_entries ++ [.frameW key fs.key ss.key f.line
                     (f.line_end.getD 0) (f.column.getD 0) (f.column_end.getD 0)] })

/-- The comprehension `[self.resolve_frame(f) for f in event.frames]`
(mojo.py line 908). -/
def resolve_frames (w : WState) : List AustinFrame → List MojoFrame × WState
  | [] => ([], w)
  | f :: rest =>
    let (mf, w1) := resolve_frame w f
    let (mfs, w2) := resolve_frames w1 rest
    (mf :: mfs, w2)


/-- The frame list the writer iterates for a sample: `event.frames` when
truthy (a nonempty tuple), else empty (mojo.py lines 907-909). -/
def framesListOf (e : AustinSample) : List AustinFrame :=
  match e.frames with
  | some (f :: rest) => f :: rest
  | _ => []

/-- A byte string the MOJO null-terminated string codec round-trips: no NUL
byte, and at most the 1024 bytes of the str_reader buffer. -/
def validStr (s : ByteStr) : Prop := 0 ∉ s ∧ s.length ≤ 1024

instance (s : ByteStr) : Decidable (validStr s) := by
  unfold validStr
  infer_instance

/-- A frame the writer-reader pipeline round-trips: codec-valid strings that
are neither empty (the preseeded key-0 string, which the reader never
registers) nor equal keyed strings problems; the empty filename or function
would make the reader fail on an unregistered key 0. -/
def validFrame (f : AustinFrame) : Prop :=
  validStr f.filename ∧ validStr f.function ∧ f.filename ≠ [] ∧ f.function ≠ []

instance (f : AustinFrame) : Decidable (validFrame f) := by
  unfold validFrame
  infer_instance

/-- A sample the pipeline round-trips: the fixed session pid (the reader
scopes every reference by the current stack's pid while the writer interns
globally), a codec-valid thread name, and valid frames. -/
def validSample (p : Int) (s : AustinSample) : Prop :=
  s.pid = p ∧ validStr s.thread ∧ ∀ f ∈ framesListOf s, validFrame f

instance (p : Int) (s : AustinSample) : Decidable (validSample p s) := by
  unfold validSample
  infer_instance

/-- The normalization the pipeline applies to a frame: absent end locations
are written as 0 (`or 0`) and read back as present zeros. -/
def normFrame (f : AustinFrame) : AustinFrame :=
  { f with line_end := some (f.line_end.getD 0), column := some (f.column.getD 0),
           column_end := some (f.column_end.getD 0) }

/-- The metrics the reader reconstructs, by writing mode: full mode writes
time then memory (absent becomes 0), memory mode only memory, any other
mode only time. -/
def normMetrics (mode : Option ByteStr) (m : AustinMetrics) : AustinMetrics :=
  if mode = some strFull then ⟨some (m.time.getD 0), some (m.memory.getD 0)⟩
  else if mode = some strMemory then ⟨none, some (m.memory.getD 0)⟩
  else ⟨some (m.time.getD 0), none⟩

/-- The normalization the encode/decode pipeline applies to a sample: iid
absent becomes 0; an absent or empty frame tuple decodes as absent, frames
get their end locations normalized; gc is on exactly when the gc metadata
flag was on; idle survives only as true and only in full mode; metrics per
the mode. -/
def normSample (gcOn : Bool) (mode : Option ByteStr) (s : AustinSample) : AustinSample :=
  { pid := s.pid, iid := some (s.iid.getD 0), thread := s.thread,
    metrics := normMetrics mode s.metrics,
    frames := match framesListOf s with
      | [] => none
      | f :: rest => some ((f :: rest).map normFrame),
    gc := if gcOn then some true else none,
    idle := if mode = some strFull ∧ s.idle = some true then some true else none }

/-- The mode governing metric emission after a metadata prefix: the value of
the last metadata named mode (set_metadata overwrites it each time). -/
def modeOf (metas : List AustinMetadata) : Option ByteStr :=
  metas.foldl (fun acc m => if m.name = strMode then some m.value else acc) none

/-- Whether the gc flag is on after a metadata prefix: some metadata named
gc carried the value on (set_metadata only ever sets the flag). -/
def gcOnOf (metas : List AustinMetadata) : Bool :=
  metas.foldl (fun acc m => acc || (decide (m.name = strGc) && decide (m.value = strOn))) false

/-- The trailing yield of __iter__: the finalized running sample, if any. -/
def pendingOf (r : RState) : List AustinEvent :=
  match r.running with
  | some x => [.sample (finalize_sample x)]
  | none => []

/-- A decoding run specification: for every sufficient fuel, iterating the
reader over these bytes from this state yields exactly this event list. -/
def IterOK (r : RState) (bs : List Nat) (out : List AustinEvent) : Prop :=
  ∀ fuel, bs.length < fuel → iter_events_fuel fuel r bs = some out

/-- The writer string table holds values keyed by their position, starting
at the given index (len(self._strings) keys new entries). -/
def strNumbered : Nat → List (ByteStr × MojoString) → Prop
  | _, [] => True
  | n, pr :: rest => pr.2.key = (n : Int) ∧ pr.2.value = pr.1 ∧ strNumbered (n + 1) rest

/-- The writer frame table holds frames keyed by their position, starting at
the given index (len(self._frames) keys new entries). -/
def frNumbered : Nat → List (AustinFrame × MojoFrame) → Prop
  | _, [] => True
  | n, pr :: rest => pr.2.key = (n : Int) ∧ frNumbered (n + 1) rest

/-- How the writer's interned MojoFrame renders an AustinFrame: strings by
value, end locations defaulted to 0. -/
def frameRel (af : AustinFrame) (mf : MojoFrame) : Prop :=
  mf.filename.value = af.filename ∧ mf.scope.value = af.function ∧ mf.line = af.line ∧
  mf.line_end = some (af.line_end.getD 0) ∧ mf.column = some (af.column.getD 0) ∧
  mf.column_end = some (af.column_end.getD 0)

/-- Simulation invariant, string side: the writer table starts with the
preseeded EMPTY and UNKNOWN entries, is keyed by position, and every entry
with key at least 2 is registered in the reader's per-pid string map. -/
def SimInvStr (p : Int) (w : WState) (r : RState) : Prop :=
  (∃ rest, w.strings = ([], EMPTY) :: (UNKNOWN.value, UNKNOWN) :: rest) ∧
  strNumbered 0 w.strings ∧
  (∀ pr ∈ w.strings, pr.2.key ≥ 2 → dictFind r.string_map (p, pr.2.key) = some pr.2) ∧
  (∀ k t, dictFind r.string_map (p, k) = some t → k < (w.strings.length : Int))

/-- Simulation invariant, frame side: the writer frame table is keyed by
position and every entry is registered, with identical content, in the
reader's per-pid frame map, and renders its AustinFrame. -/
def SimInvFr (p : Int) (w : WState) (r : RState) : Prop :=
  frNumbered 0 w.frames ∧
  (∀ pr ∈ w.frames, dictFind r.frame_map (p, pr.2.key) = some pr.2) ∧
  (∀ pr ∈ w.frames, frameRel pr.1 pr.2) ∧
  (∀ k mf, dictFind r.frame_map (p, k) = some mf → k < (w.frames.length : Int))

/-- Full writer/reader simulation invariant for a session on one pid. -/
def SimInv (p : Int) (w : WState) (r : RState) : Prop :=
  r.version = 3 ∧ SimInvStr p w r ∧ SimInvFr p w r


/-- Reader-state components a definition event leaves unchanged. -/
def RUnch (r r2 : RState) : Prop :=
  r2.version = r.version ∧ r2.running = r.running ∧ r2.samples = r.samples ∧
  r2.metadata = r.metadata

/-- Reader reference maps only ever grow during definition processing. -/
def SMapsExt (r r2 : RState) : Prop :=
  (∀ q t, dictFind r.string_map q = some t → dictFind r2.string_map q = some t) ∧
  (∀ q t, dictFind r.frame_map q = some t → dictFind r2.frame_map q = some t)

/-- Sequential definition-before-use discipline of the writer's wire
output: string and frame definitions carry consecutive keys from the given
counters, every frame definition references only string keys already
defined (or the preseeded 0 and 1), and every frame reference names an
already defined frame key. -/
def defs_before_use (nStr nFr : Int) : List Wire → Bool
  | [] => true
  | .stringW k _ :: rest => (decide (k = nStr)) && defs_before_use (nStr + 1) nFr rest
  | .frameW k fk sk _ _ _ _ :: rest =>
      (decide (k = nFr)) && (decide (0 ≤ fk ∧ fk < nStr)) && (decide (0 ≤ sk ∧ sk < nStr)) &&
        defs_before_use nStr (nFr + 1) rest
  | .frameRefW k :: rest => (decide (0 ≤ k ∧ k < nFr)) && defs_before_use nStr nFr rest
  | _ :: rest => defs_before_use nStr nFr rest

/-- Number of Frame definition events in a wire list. -/
def cntFrameDefs (ws : List Wire) : Nat :=
  ws.countP fun w => match w with
    | .frameW _ _ _ _ _ _ _ => true
    | _ => false

/-- Number of Frame definition events with the given key. -/
def cntFrameDefsKey (k : Int) (ws : List Wire) : Nat :=
  ws.countP fun w => match w with
    | .frameW k2 _ _ _ _ _ _ => decide (k2 = k)
    | _ => false

/-- Number of Frame reference events with the given key. -/
def cntFrameRefsKey (k : Int) (ws : List Wire) : Nat :=
  ws.countP fun w => match w with
    | .frameRefW k2 => decide (k2 = k)
    | _ => false


/-- MojoStreamWriter.write (mojo.py lines 897-952) at the wire-event level;
the bytes written are bytes_of_wires of the returned list.  For a sample:
the Stack event (iid absent becomes 0), then the flushed new definition
entries, then one Frame reference per frame, a GC tag when the gc metadata
flag is on, then per mode: full writes optional Idle plus time and memory
metrics, memory writes the memory metric, anything else the time metric —
each metric value absent becomes 0. -/
def write_event (w : WState) : AustinEvent → List Wire × WState
  | .metadata m =>
    ([.metadataW m.name m.value], set_metadata w m.name m.value)
  | .sample e =>
    let fs : List AustinFrame := framesListOf e
    let (mfs, w1) := resolve_frames w fs
    let stk := Wire.stackW e.pid (e.iid.getD 0) e.thread
    let defs := w1.new_entries
    let w2 := { w1 with new_entries := [] }
    let refs := mfs.map fun mf => Wire.frameRefW mf.key
    let gcs : List Wire := if w2.gcFlag then [.gcW] else []
    let mets : List Wire :=
      if w2.mode = some strFull then
        (if e.idle = some true then [.idleW] else []) ++
          [.metricW true (e.metrics.time.getD 0), .metricW false (e.metrics.memory.getD 0)]
      else if w2.mode = some strMemory then [.metricW false (e.metrics.memory.getD 0)]
      else [.metricW true (e.metrics.time.getD 0)]
    (stk :: (defs ++ refs ++ gcs ++ mets), w2)

/-- Writing a sequence of events through MojoStreamWriter.write. -/
def write_events (w : WState) : List AustinEvent → List Wire × WState
  | [] => ([], w)
  | e :: rest =>
    let (ws1, w1) := write_event w e
    let (ws2, w2) := write_events w1 rest
    (ws1 ++ ws2, w2)

/-- A full encoding session: the HEADER b"MOJ\x03" (mojo.py lines 839 and
895) followed by the bytes of every written event, from a fresh writer. -/
def encode_events (es : List AustinEvent) : List Nat :=
  [77, 79, 74, 3] ++ bytes_of_wires (write_events initW es).1


/-- Concrete reader states for witnesses. -/
def wRun5 : RunningSample := RunningSample.mk 5 [] none [] none none none none

def wStV1 : RState := RState.mk 1 [] [] (some wRun5) [] []

def wStV3 : RState := RState.mk 3 [] [] (some wRun5) [] []


/-- Counter evolution of the definition-before-use scan: a String definition
bumps the string counter, a Frame definition the frame counter. -/
def dbuStep (p : Int × Int) : Wire → Int × Int
  | .stringW _ _ => (p.1 + 1, p.2)
  | .frameW _ _ _ _ _ _ _ => (p.1, p.2 + 1)
  | _ => p

/-- Concrete events for the round-trip and interning witnesses. -/
def cSample1 : AustinSample :=
  ⟨5, none, [116], ⟨some 3, none⟩, none, none, none⟩

def cMeta1 : AustinMetadata := ⟨strMode, strFull⟩

def cFrame2 : AustinFrame := ⟨[97], [98], 7, none, none, none⟩

def cSample2 : AustinSample :=
  ⟨5, some 1, [116], ⟨some 3, some 4⟩, some [cFrame2], none, some true⟩

def cFrameB : AustinFrame := ⟨[97], [98], 7, none, some 3, none⟩

def cSampleA : AustinSample := ⟨5, none, [116], ⟨some 1, none⟩, some [cFrame2], none, none⟩

def cSampleB : AustinSample := ⟨5, none, [116], ⟨some 1, none⟩, some [cFrameB], none, none⟩

end Mojo

namespace Stats

/-- MetricType (stats.py lines 78-92). -/
inductive MetricType
  | time
  | memory
deriving DecidableEq, Repr

/-- Metric (stats.py lines 95-160). -/
structure Metric where
  type : MetricType
  value : Int
deriving DecidableEq, Repr

/-- `Metric.__add__` (stats.py lines 102-108).  The source asserts
`self.type == other.type` and then sums the values; a mismatched addition
raises before mutating anything, so every reachable tree is built from
same-type additions only, where this total function and the Python operator
agree. -/
def Metric.add (a b : Metric) : Metric := ⟨a.type, a.value + b.value⟩

/-- Python frame of the text format (stats.py lines 163-194). -/
structure Frame where
  function : String
  filename : String
  line : Int
deriving DecidableEq, Repr

/-- Node label: a ThreadStats node carries the thread name, a FrameStats
node carries a Frame (stats.py lines 331-348). -/
inductive SLabel
  | thread (name : String)
  | frame (f : Frame)
deriving DecidableEq, Repr

/-- HierarchicalStats (stats.py lines 271-328).  `children` embeds the
insertion-ordered Python dict as an association list; `height` is the extra
FrameStats field (left 0 on thread roots, which have no such field). -/
inductive HS
  | mk (label : SLabel) (own total : Metric) (children : List (SLabel × HS)) (height : Nat)

def HS.label : HS → SLabel
  | .mk l _ _ _ _ => l

def HS.own : HS → Metric
  | .mk _ o _ _ _ => o

def HS.total : HS → Metric
  | .mk _ _ t _ _ => t

def HS.children : HS → List (SLabel × HS)
  | .mk _ _ _ c _ => c

def HS.height : HS → Nat
  | .mk _ _ _ _ h => h

mutual

/-- `HierarchicalStats.__lshift__` (stats.py lines 294-308): merge the RHS
into the LHS; a label mismatch returns the LHS unchanged. -/
def combine (a b : HS) : HS :=
  match a, b with
  | .mk la oa ta ca ha, .mk lb ob tb cb _ =>
    if la ≠ lb then .mk la oa ta ca ha
    else .mk la (oa.add ob) (ta.add tb) (combineChildren ca cb) ha
  termination_by (sizeOf b, 0)

/-- The merge loop over `other.children.items()` (stats.py lines 302-306). -/
def combineChildren (ca : List (SLabel × HS)) : List (SLabel × HS) → List (SLabel × HS)
  | [] => ca
  | (k, c) :: rest => combineChildren (combineChild ca k c) rest
  termination_by cb => (sizeOf cb, 0)

/-- One step of the merge loop: `self.children[frame] << child`, with the
KeyError branch adopting the subtree (`self.children[frame] = child`). -/
def combineChild : List (SLabel × HS) → SLabel → HS → List (SLabel × HS)
  | [], key, c => [(key, c)]
  | (k, a) :: rest, key, c =>
    if k = key then (k, combine a c) :: rest else (k, a) :: combineChild rest key c
  termination_by ca _ c => (sizeOf c, sizeOf ca)

end

/-- ProcessStats (stats.py lines 351-372). -/
structure ProcessStats where
  pid : Int
  threads : List (String × HS)

/-- `ProcessStats.get_thread` (stats.py lines 366-372): a dict `.get` —
returns Python None (modelled `Option.none`) when the thread name has no
entry; it neither raises nor creates an entry. -/
def ProcessStats.get_thread (p : ProcessStats) (name : String) : Option HS :=
  dictFind p.threads name

/-- AustinStatsType (stats.py lines 375-381). -/
inductive AustinStatsType
  | wall
  | cpu
  | memory_alloc
  | memory_dealloc
deriving DecidableEq, Repr

/-- AustinStats (stats.py lines 436-448).  The `_lock` field is excluded:
`update` holds it for the whole mutation, so a single call is atomic and the
sequential semantics below is the locked behaviour. -/
structure AustinStats where
  stats_type : AustinStatsType
  processes : List (Int × ProcessStats)

/-- `AustinStats.get_process` (stats.py lines 473-475): `self.processes[pid]`
— a missing pid raises KeyError (modelled `.error`), creating nothing. -/
def AustinStats.get_process (st : AustinStats) (pid : Int) : Except Unit ProcessStats :=
  match dictFind st.processes pid with
  | some p => .ok p
  | none => .error ()

/-- Austin text-format sample (stats.py lines 197-268) as consumed by
`AustinStats.update`. -/
structure Sample where
  pid : Int
  thread : String
  metric : Metric
  frames : List Frame

/-- The chain of FrameStats nodes built by `AustinStats.update` for the
sample's frame list (stats.py lines 553-562): every node has own = zero and
total = the sample metric, the heights enumerate the frames, and the last
node's own is set to the full metric (`stats.own = stats.total.copy()`). -/
def framesChain (m zero : Metric) : Nat → Frame → List Frame → HS
  | h, f, [] => .mk (.frame f) m m [] h
  | h, f, g :: rest => .mk (.frame f) zero m [(.frame g, framesChain m zero (h + 1) g rest)] h

/-- The fresh single-path ThreadStats tree built by `AustinStats.update`
(stats.py lines 549-562); with no frames the thread root itself receives the
full metric as its own. -/
def samplePath (s : Sample) : HS :=
  let zero : Metric := ⟨s.metric.type, 0⟩
  match s.frames with
  | [] => .mk (.thread s.thread) s.metric s.metric [] 0
  | f :: rest =>
    .mk (.thread s.thread) zero s.metric [(.frame f, framesChain s.metric zero 0 f rest)] 0

/-- `AustinStats.update` (stats.py lines 542-574). -/
def update (st : AustinStats) (s : Sample) : AustinStats :=
  let path := samplePath s
  match dictFind st.processes s.pid with
  | none =>
      { st with processes := dictSet st.processes s.pid (ProcessStats.mk s.pid [(s.thread, path)]) }
  | some proc =>
      match dictFind proc.threads s.thread with
      | none =>
          { st with processes := dictSet st.processes s.pid (ProcessStats.mk proc.pid (dictSet proc.threads s.thread path)) }
      | some ts =>
          { st with processes := dictSet st.processes s.pid (ProcessStats.mk proc.pid (dictSet proc.threads s.thread (combine ts path))) }

/-- Sum of `child.total` values over a children dict. -/
def sumTotals : List (SLabel × HS) → Int
  | [] => 0
  | (_, c) :: rest => c.total.value + sumTotals rest

mutual

/-- The own/total tree law of spec §3 at every node —
`total == own + Σ total(child)` on metric values — together with the
structural fact that each child is keyed by its own label (true of every
tree austin-python builds, and needed for the law to survive merges). -/
def invHS : HS → Bool
  | .mk _ o t c _ => (decide (t.value = o.value + sumTotals c)) && invChildren c

def invChildren : List (SLabel × HS) → Bool
  | [] => true
  | (k, c) :: rest => (decide (c.label = k)) && invHS c && invChildren rest

end

/-- The tree law over a whole AustinStats value: every thread tree of every
process satisfies `invHS`. -/
def invStats (st : AustinStats) : Bool :=
  st.processes.all fun pr => pr.2.threads.all fun th => invHS th.2

mutual

/-- The bare own/total law of claim C3 at every node, with no side
conditions: `total == own + Σ total(child)` on metric values. -/
def lawHS : HS → Bool
  | .mk _ o t c _ => (decide (t.value = o.value + sumTotals c)) && lawChildren c

def lawChildren : List (SLabel × HS) → Bool
  | [] => true
  | (_, c) :: rest => lawHS c && lawChildren rest

end

/-- The bare own/total law over every node reachable through
processes → threads → children of an AustinStats value. -/
def lawStats (st : AustinStats) : Bool :=
  st.processes.all fun pr => pr.2.threads.all fun th => lawHS th.2

/-- The empty aggregator of a given statistics type. -/
def emptyStats (τ : AustinStatsType) : AustinStats := ⟨τ, []⟩

end Stats

/-! ## Theorems -/

theorem dictFind_dictSet {α β : Type} [DecidableEq α] (d : List (α × β)) (k k' : α) (v : β) :
    dictFind (dictSet d k v) k' = if k = k' then some v else dictFind d k' := by
  induction d with
  | nil => simp [dictSet, dictFind]
  | cons kw rest ih =>
    obtain ⟨k0, w⟩ := kw
    rw [dictSet]
    by_cases h : k0 = k
    · subst h
      rw [if_pos rfl]
      by_cases h' : k0 = k'
      · subst h'; simp [dictFind]
      · simp [dictFind, h']
    · rw [if_neg h, dictFind, dictFind]
      by_cases h' : k0 = k'
      · subst h'
        rw [if_pos rfl, if_pos rfl, if_neg (fun hkk => h hkk.symm)]
      · rw [if_neg h', if_neg h', ih]

theorem dictFind_mem {α β : Type} [DecidableEq α] {d : List (α × β)} {key : α} {v : β}
    (h : dictFind d key = some v) : (key, v) ∈ d := by
  induction d with
  | nil => simp [dictFind] at h
  | cons kw rest ih =>
    obtain ⟨k0, w⟩ := kw
    rw [dictFind] at h
    by_cases hk : k0 = key
    · subst hk
      rw [if_pos rfl] at h
      cases h
      exact List.mem_cons_self _ _
    · rw [if_neg hk] at h
      exact List.mem_cons_of_mem _ (ih h)

theorem dictFind_eq_none_of_not_mem {α β : Type} [DecidableEq α] {d : List (α × β)} {key : α}
    (h : key ∉ d.map Prod.fst) : dictFind d key = none := by
  induction d with
  | nil => rfl
  | cons kw rest ih =>
    obtain ⟨k0, w⟩ := kw
    rw [dictFind]
    simp only [List.map_cons, List.mem_cons, not_or] at h
    rw [if_neg (fun hk => h.1 hk.symm), ih h.2]

theorem all_dictSet {α β : Type} [DecidableEq α] (d : List (α × β)) (k : α) (v : β)
    (p : α × β → Bool) (hd : d.all p = true) (hv : p (k, v) = true) :
    (dictSet d k v).all p = true := by
  induction d with
  | nil => simpa [dictSet] using hv
  | cons kw rest ih =>
    obtain ⟨k0, w⟩ := kw
    rw [dictSet]
    simp only [List.all_cons, Bool.and_eq_true] at hd
    by_cases h : k0 = k
    · subst h
      rw [if_pos rfl]
      simp only [List.all_cons, Bool.and_eq_true]
      exact ⟨hv, hd.2⟩
    · rw [if_neg h]
      simp only [List.all_cons, Bool.and_eq_true]
      exact ⟨hd.1, ih hd.2⟩

theorem dictSet_absent {α β : Type} [DecidableEq α] (d : List (α × β)) (k : α) (v : β)
    (h : dictFind d k = none) : dictSet d k v = d ++ [(k, v)] := by
  induction d with
  | nil => rfl
  | cons kw rest ih =>
    obtain ⟨k0, w⟩ := kw
    rw [dictFind] at h
    by_cases hk : k0 = k
    · rw [if_pos hk] at h
      exact Option.noConfusion h
    · rw [if_neg hk] at h
      rw [dictSet, if_neg hk, ih h]
      rfl


namespace Mojo

theorem to_varint_tail_zero : to_varint_tail 0 = [] := by
  rw [to_varint_tail]
  simp

theorem int_reader_cont_cons (n s b : Nat) (rest : List Nat) :
    int_reader_cont n s (b :: rest) =
      if b / 128 % 2 = 1 then int_reader_cont (n + (b % 128) * 2 ^ s) (s + 7) rest
      else some (n + (b % 128) * 2 ^ s, rest) := rfl

theorem read_int_cons (b : Nat) (rest : List Nat) :
    read_int (b :: rest) =
      match
        (if b / 128 % 2 = 1 then int_reader_cont (b % 64) 6 rest
         else some (b % 64, rest)) with
      | none => none
      | some (n, r) => some (if b / 64 % 2 = 1 then -(n : Int) else (n : Int), r) := rfl

theorem int_reader_cont_to_varint_tail (m : Nat) (hm : m ≠ 0) :
    ∀ (n s : Nat) (extra : List Nat),
    int_reader_cont n s (to_varint_tail m ++ extra) =
      some (n + m * 2 ^ s, extra) := by
  induction m using Nat.strong_induction_on with
  | _ m ih =>
    intro n s extra
    rw [to_varint_tail, if_neg hm]
    by_cases h : m / 128 = 0
    · rw [if_pos h, h, to_varint_tail_zero]
      simp only [List.cons_append, List.nil_append, int_reader_cont_cons]
      rw [if_neg (by omega : ¬ (m % 128 + 0) / 128 % 2 = 1)]
      have hb : (m % 128 + 0) % 128 = m := by omega
      rw [hb]
    · rw [if_neg h]
      simp only [List.cons_append, int_reader_cont_cons]
      rw [if_pos (by omega : (m % 128 + 128) / 128 % 2 = 1)]
      have hb : (m % 128 + 128) % 128 = m % 128 := by omega
      rw [hb, ih (m / 128) (by omega) h]
      have hdm : 128 * (m / 128) + m % 128 = m := Nat.div_add_mod m 128
      have hp : (2 : Nat) ^ (s + 7) = 2 ^ s * 128 := by rw [pow_add]; norm_num
      have harith : n + m % 128 * 2 ^ s + m / 128 * 2 ^ (s + 7) = n + m * 2 ^ s :=
        calc n + m % 128 * 2 ^ s + m / 128 * 2 ^ (s + 7)
            = n + (128 * (m / 128) + m % 128) * 2 ^ s := by rw [hp]; ring
          _ = n + m * 2 ^ s := by rw [hdm]
      rw [harith]

/-- Varint round trip: decoding the encoding of any integer consumes exactly
the encoded bytes and returns the original value. -/
theorem read_int_to_varint_spec (n : Int) (extra : List Nat) :
    read_int (to_varint n ++ extra) = some (n, extra) := by
  rw [to_varint]
  set m := n.natAbs with hmdef
  by_cases hneg : n < 0
  · rw [if_pos hneg]
    have hm0 : m ≠ 0 := by
      have := Int.natAbs_pos.mpr (by omega : n ≠ 0)
      omega
    by_cases h : m / 64 = 0
    · rw [if_pos h, h, to_varint_tail_zero]
      simp only [List.cons_append, List.nil_append, read_int_cons]
      rw [if_neg (by omega : ¬ (64 + m % 64 + 0) / 128 % 2 = 1)]
      simp only []
      rw [if_pos (by omega : (64 + m % 64 + 0) / 64 % 2 = 1)]
      have hb : (64 + m % 64 + 0) % 64 = m := by omega
      rw [hb]
      have hval : -(m : Int) = n := by omega
      rw [hval]
    · rw [if_neg h]
      simp only [List.cons_append, read_int_cons]
      rw [if_pos (by omega : (64 + m % 64 + 128) / 128 % 2 = 1)]
      have hb : (64 + m % 64 + 128) % 64 = m % 64 := by omega
      rw [hb, int_reader_cont_to_varint_tail (m / 64) h (m % 64) 6 extra]
      have hdm : m % 64 + m / 64 * 2 ^ 6 = m := by omega
      rw [hdm]
      simp only []
      rw [if_pos (by omega : (64 + m % 64 + 128) / 64 % 2 = 1)]
      have hval : -(m : Int) = n := by omega
      rw [hval]
  · rw [if_neg hneg]
    have hmn : (m : Int) = n := by omega
    by_cases h : m / 64 = 0
    · rw [if_pos h, h, to_varint_tail_zero]
      simp only [List.cons_append, List.nil_append, read_int_cons]
      rw [if_neg (by omega : ¬ (0 + m % 64 + 0) / 128 % 2 = 1)]
      simp only []
      rw [if_neg (by omega : ¬ (0 + m % 64 + 0) / 64 % 2 = 1)]
      have hb : (0 + m % 64 + 0) % 64 = m := by omega
      rw [hb, hmn]
    · rw [if_neg h]
      simp only [List.cons_append, read_int_cons]
      rw [if_pos (by omega : (0 + m % 64 + 128) / 128 % 2 = 1)]
      have hb : (0 + m % 64 + 128) % 64 = m % 64 := by omega
      rw [hb, int_reader_cont_to_varint_tail (m / 64) h (m % 64) 6 extra]
      have hdm : m % 64 + m / 64 * 2 ^ 6 = m := by omega
      rw [hdm]
      simp only []
      rw [if_neg (by omega : ¬ (0 + m % 64 + 128) / 64 % 2 = 1)]
      rw [hmn]

/-- MOJO varint round trip, claim C2: decoding the encoding of any integer
consumes exactly the encoded bytes and returns the original value, for every
integer and every stream continuation. -/
theorem read_int_to_varint (n : Int) (extra : List Nat) :
    read_int (to_varint n ++ extra) = some (n, extra) :=
  read_int_to_varint_spec n extra

theorem str_read_aux_spec (s : ByteStr) : ∀ (acc : ByteStr) (extra : List Nat),
    0 ∉ s → acc.length + s.length ≤ 1024 →
    str_read_aux acc (s ++ 0 :: extra) = some (acc.reverse ++ s, extra) := by
  induction s with
  | nil =>
    intro acc extra _ _
    simp [str_read_aux]
  | cons b s ih =>
    intro acc extra h0 hlen
    simp only [List.mem_cons, not_or] at h0
    simp only [List.cons_append, str_read_aux, List.append_eq]
    rw [if_neg (fun hb => h0.1 hb.symm), if_neg (by simp at hlen ⊢; omega)]
    rw [ih (b :: acc) extra h0.2 (by simp at hlen ⊢; omega)]
    simp

theorem read_str_spec (s : ByteStr) (extra : List Nat) (h0 : 0 ∉ s)
    (hlen : s.length ≤ 1024) :
    read_str (s ++ 0 :: extra) = some (s, extra) := by
  rw [read_str, str_read_aux_spec s [] extra h0 (by simpa using hlen)]
  simp

theorem otherOf_ok {o : Option (RState × List Nat)} {e : PEvent} {s : RState}
    {r : List Nat} (h : otherOf o = .ok e s r) : e = .otherEv := by
  cases o with
  | none => simp [otherOf] at h
  | some pr =>
    obtain ⟨st', r'⟩ := pr
    rw [otherOf] at h
    cases h
    rfl

theorem otherOf_ne_eof (o : Option (RState × List Nat)) : otherOf o ≠ .eof := by
  cases o with
  | none => simp [otherOf]
  | some pr =>
    obtain ⟨a, b⟩ := pr
    simp [otherOf]

theorem parse_stack_core_spec {st : RState} {bs : List Nat} {st' : RState}
    {r : List Nat} (h : parse_stack_core st bs = some (st', r)) :
    st'.samples = (match st.running with
      | some x => st.samples ++ [finalize_sample x]
      | none => st.samples) ∧ st'.running.isSome := by
  unfold parse_stack_core at h
  cases h1 : read_int bs with
  | none => rw [h1] at h; simp at h
  | some pr1 =>
    obtain ⟨pid, bs1⟩ := pr1
    rw [h1] at h
    by_cases hv : st.version ≥ 3
    · simp only [if_pos hv, Option.some_bind, Option.bind_eq_bind] at h
      cases h2 : read_int bs1 with
      | none => rw [h2] at h; simp at h
      | some pr2 =>
        obtain ⟨iid0, bs2⟩ := pr2
        rw [h2] at h
        cases h3 : read_str bs2 with
        | none => simp [h3] at h
        | some pr3 =>
          obtain ⟨thread, bs3⟩ := pr3
          simp [h3] at h
          obtain ⟨h4, _⟩ := h
          subst h4
          exact ⟨rfl, rfl⟩
    · simp only [if_neg hv, Option.some_bind, Option.bind_eq_bind] at h
      cases h3 : read_str bs1 with
      | none => simp [h3] at h
      | some pr3 =>
        obtain ⟨thread, bs3⟩ := pr3
        simp [h3] at h
        obtain ⟨h4, _⟩ := h
        subst h4
        exact ⟨rfl, rfl⟩

theorem parse_event_cases (st : RState) (tag : Nat) (rest : List Nat) :
    (tag = 1 ∧ parse_event st (tag :: rest) =
      (match parse_metadata_core st rest with
        | some ((n, v), st', r) => POut.ok (.metadataEv n v) st' r
        | none => .fail)) ∨
    (tag = 2 ∧ parse_event st (tag :: rest) =
      (match parse_stack_core st rest with
        | some (st', r) => POut.ok .stackEv st' r
        | none => .fail)) ∨
    (∃ o, parse_event st (tag :: rest) = otherOf o) ∨
    (parse_event st (tag :: rest) = .fail) := by
  by_cases h1 : tag = 1
  · exact Or.inl ⟨h1, by rw [parse_event, if_pos h1]⟩
  by_cases h2 : tag = 2
  · exact Or.inr (Or.inl ⟨h2, by rw [parse_event, if_neg h1, if_pos h2]⟩)
  by_cases h3 : tag = 3
  · exact Or.inr (Or.inr (Or.inl ⟨_, by rw [parse_event, if_neg h1, if_neg h2, if_pos h3]⟩))
  by_cases h4 : tag = 4
  · exact Or.inr (Or.inr (Or.inl ⟨_, by rw [parse_event, if_neg h1, if_neg h2, if_neg h3, if_pos h4]⟩))
  by_cases h5 : tag = 5
  · exact Or.inr (Or.inr (Or.inl ⟨_, by rw [parse_event, if_neg h1, if_neg h2, if_neg h3, if_neg h4, if_pos h5]⟩))
  by_cases h6 : tag = 6
  · exact Or.inr (Or.inr (Or.inl ⟨_, by rw [parse_event, if_neg h1, if_neg h2, if_neg h3, if_neg h4, if_neg h5, if_pos h6]⟩))
  by_cases h7 : tag = 7
  · exact Or.inr (Or.inr (Or.inl ⟨_, by rw [parse_event, if_neg h1, if_neg h2, if_neg h3, if_neg h4, if_neg h5, if_neg h6, if_pos h7]⟩))
  by_cases h8 : tag = 8
  · exact Or.inr (Or.inr (Or.inl ⟨_, by rw [parse_event, if_neg h1, if_neg h2, if_neg h3, if_neg h4, if_neg h5, if_neg h6, if_neg h7, if_pos h8]⟩))
  by_cases h9 : tag = 9
  · exact Or.inr (Or.inr (Or.inl ⟨_, by rw [parse_event, if_neg h1, if_neg h2, if_neg h3, if_neg h4, if_neg h5, if_neg h6, if_neg h7, if_neg h8, if_pos h9]⟩))
  by_cases h10 : tag = 10
  · exact Or.inr (Or.inr (Or.inl ⟨_, by rw [parse_event, if_neg h1, if_neg h2, if_neg h3, if_neg h4, if_neg h5, if_neg h6, if_neg h7, if_neg h8, if_neg h9, if_pos h10]⟩))
  by_cases h11 : tag = 11
  · exact Or.inr (Or.inr (Or.inl ⟨_, by rw [parse_event, if_neg h1, if_neg h2, if_neg h3, if_neg h4, if_neg h5, if_neg h6, if_neg h7, if_neg h8, if_neg h9, if_neg h10, if_pos h11]⟩))
  by_cases h12 : tag = 12
  · exact Or.inr (Or.inr (Or.inl ⟨_, by rw [parse_event, if_neg h1, if_neg h2, if_neg h3, if_neg h4, if_neg h5, if_neg h6, if_neg h7, if_neg h8, if_neg h9, if_neg h10, if_neg h11, if_pos h12]⟩))
  exact Or.inr (Or.inr (Or.inr (by rw [parse_event, if_neg h1, if_neg h2, if_neg h3, if_neg h4, if_neg h5, if_neg h6, if_neg h7, if_neg h8, if_neg h9, if_neg h10, if_neg h11, if_neg h12])))

/-- Claim C6: during decoding, the running sample is finalized and yielded
exactly when a subsequent Stack event is decoded or the byte stream ends,
and never before.  Part 1: no non-Stack event (frame, frame-ref, string,
metric, gc, idle, kernel/invalid frame — and metadata yields only a
metadata event) makes __iter__ yield a sample.  Part 2: a decoded Stack
event yields exactly the finalization of the running sample accumulated so
far (so a sample is yielded only after all of its constituent tags are
consumed), and nothing when no sample is running.  Part 3: at end of
stream, the running sample (if any) is finalized and yielded.  Part 4:
end-of-stream is recognised only at an event boundary.  The hypothesis
(samples nonempty only once a sample is running) holds of every reachable
reader state: samples are only ever appended by finalizing, which happens
under get_stack, which immediately installs a new running sample. -/
theorem sample_emission_timing (st : RState) (bs : List Nat) (fuel : Nat)
    (h0 : st.running = none → st.samples = []) :
    (∀ e st' r, parse_event st bs = .ok e st' r → e ≠ .stackEv →
      samplesOf (emit_of e st') = []) ∧
    (∀ st' r, parse_event st bs = .ok .stackEv st' r →
      samplesOf (emit_of .stackEv st') =
        (match st.running with
         | some x => [finalize_sample x]
         | none => [])) ∧
    (iter_events_fuel (fuel + 1) st [] =
      some (match st.running with
            | some x => [.sample (finalize_sample x)]
            | none => [])) ∧
    (bs ≠ [] → parse_event st bs ≠ .eof) := by
  refine ⟨?_, ?_, ?_, ?_⟩
  · intro e st' r _ hne
    cases e with
    | metadataEv n v => rfl
    | stackEv => exact absurd rfl hne
    | otherEv => rfl
  · intro st' r hok
    cases bs with
    | nil => rw [parse_event] at hok; exact POut.noConfusion hok
    | cons tag rest =>
      rcases parse_event_cases st tag rest with ⟨h1, heq⟩ | ⟨h2, heq⟩ | ⟨o, heq⟩ | heq
      · rw [heq] at hok
        cases hc : parse_metadata_core st rest with
        | none => rw [hc] at hok; exact POut.noConfusion hok
        | some x =>
          obtain ⟨⟨n, v⟩, st2, r2⟩ := x
          rw [hc] at hok
          injection hok with he hst hr
          exact PEvent.noConfusion he
      · rw [heq] at hok
        cases hc : parse_stack_core st rest with
        | none => rw [hc] at hok; exact POut.noConfusion hok
        | some x =>
          obtain ⟨st2, r2⟩ := x
          rw [hc] at hok
          injection hok with he hst hr
          obtain ⟨hsam, _⟩ := parse_stack_core_spec hc
          simp only [emit_of, ← hst, hsam]
          cases hrun : st.running with
          | none =>
            rw [hrun] at h0
            simp [h0 rfl, samplesOf]
          | some x => simp [List.getLast?_concat, samplesOf]
      · rw [heq] at hok
        exact PEvent.noConfusion (otherOf_ok hok)
      · rw [heq] at hok
        exact POut.noConfusion hok
  · rw [iter_events_fuel]
    cases st.running <;> simp [parse_event]
  · intro hne
    cases bs with
    | nil => exact absurd rfl hne
    | cons tag rest =>
      rcases parse_event_cases st tag rest with ⟨h1, heq⟩ | ⟨h2, heq⟩ | ⟨o, heq⟩ | heq
      · rw [heq]
        cases hc : parse_metadata_core st rest with
        | none => simp
        | some x =>
          obtain ⟨⟨n, v⟩, st2, r2⟩ := x
          simp
      · rw [heq]
        cases hc : parse_stack_core st rest with
        | none => simp
        | some x =>
          obtain ⟨st2, r2⟩ := x
          simp
      · rw [heq]
        exact otherOf_ne_eof o
      · rw [heq]
        simp

/-- Claim C7: during decoding, resolving a string reference through
_lookup_string with key 1 always yields the constant UNKNOWN string with no
prior definition required; any other unregistered key for the current
process id is a lookup error, and such an error surfaces as a fatal decode
failure of parse_event (here on a frame event whose filename index is
unresolvable). -/
theorem string_reference_resolution
    (smap : List ((Int × Int) × MojoString)) (pid idx : Int)
    (st : RState) (r : RunningSample) (key fidx sidx line : Int) (rest : List Nat)
    (hidx : idx ≠ 1) (hmiss : dictFind smap (pid, idx) = none)
    (hv : st.version = 1) (hrun : st.running = some r)
    (hfmiss : fidx ≠ 1) (hfnone : dictFind st.string_map (r.pid, fidx) = none) :
    lookup_string smap pid 1 = some UNKNOWN ∧
    lookup_string smap pid idx = none ∧
    parse_event st (3 :: (to_varint key ++ to_varint fidx ++ to_varint sidx ++
      to_varint line ++ rest)) = .fail := by
  refine ⟨?_, ?_, ?_⟩
  · rw [lookup_string, if_pos rfl]
  · rw [lookup_string, if_neg hidx, hmiss]
  · have hcore : parse_frame_core st (to_varint key ++ to_varint fidx ++ to_varint sidx ++
        to_varint line ++ rest) = none := by
      simp only [parse_frame_core, List.append_assoc, read_int_to_varint_spec, hv, hrun,
        Option.bind_eq_bind, Option.some_bind, reduceIte]
      rw [lookup_string, if_neg hfmiss, hfnone]
      simp
    rw [parse_event, if_neg (by omega), if_neg (by omega), if_pos rfl, hcore, otherOf]

/-- Claim C5: a frame event decoded under header version 1 has line_end,
column and column_end all null and no bytes are consumed for them; under
version >= 2 these three fields are read from the stream as varints. -/
theorem frame_version_gating (st : RState) (r : RunningSample)
    (key fidx sidx line le col ce : Int) (rest : List Nat)
    (fname sname : MojoString)
    (hrun : st.running = some r)
    (hf : lookup_string st.string_map r.pid fidx = some fname)
    (hs : lookup_string st.string_map r.pid sidx = some sname) :
    (st.version = 1 →
      parse_frame_core st (to_varint key ++ to_varint fidx ++ to_varint sidx ++
          to_varint line ++ rest) =
        some ({ st with frame_map := dictSet st.frame_map (r.pid, key) (MojoFrame.mk key fname sname line none none none) }, rest)) ∧
    (st.version ≥ 2 →
      parse_frame_core st (to_varint key ++ to_varint fidx ++ to_varint sidx ++
          to_varint line ++ to_varint le ++ to_varint col ++ to_varint ce ++ rest) =
        some ({ st with frame_map := dictSet st.frame_map (r.pid, key) (MojoFrame.mk key fname sname line (some le) (some col) (some ce)) }, rest)) := by
  constructor
  · intro hv
    simp only [parse_frame_core, List.append_assoc, read_int_to_varint_spec, hv, hrun, hf, hs,
      Option.bind_eq_bind, Option.some_bind, reduceIte]
  · intro hv
    have hv1 : ¬ st.version = 1 := by omega
    simp only [parse_frame_core, List.append_assoc, read_int_to_varint_spec, hv1, hrun, hf, hs,
      Option.bind_eq_bind, Option.some_bind, reduceIte]

/-- Witness for frame_version_gating: both versions at concrete inputs,
with the two string indices resolving through the constant key 1. -/
theorem frame_version_gating_witness :
    (parse_frame_core wStV1 (to_varint 0 ++ to_varint 1 ++ to_varint 1 ++
        to_varint 9 ++ []) =
      some ({ wStV1 with frame_map := dictSet wStV1.frame_map (5, 0) (MojoFrame.mk 0 UNKNOWN UNKNOWN 9 none none none) }, [])) ∧
    (parse_frame_core wStV3 (to_varint 0 ++ to_varint 1 ++ to_varint 1 ++
        to_varint 9 ++ to_varint 2 ++ to_varint 3 ++ to_varint 4 ++ []) =
      some ({ wStV3 with frame_map := dictSet wStV3.frame_map (5, 0) (MojoFrame.mk 0 UNKNOWN UNKNOWN 9 (some 2) (some 3) (some 4)) }, [])) :=
  ⟨(frame_version_gating wStV1 wRun5 0 1 1 9 2 3 4 [] UNKNOWN UNKNOWN rfl rfl rfl).1 rfl,
   (frame_version_gating wStV3 wRun5 0 1 1 9 2 3 4 [] UNKNOWN UNKNOWN rfl rfl rfl).2
     (by decide)⟩

/-- Witness for sample_emission_timing: a fresh version-3 reader at end of
stream yields nothing. -/
theorem sample_emission_timing_witness :
    iter_events_fuel (0 + 1) (initR 3) [] = some [] :=
  (sample_emission_timing (initR 3) [] 0 (fun _ => rfl)).2.2.1

/-- Witness for string_reference_resolution at concrete inputs. -/
theorem string_reference_resolution_witness :
    lookup_string [] 9 1 = some UNKNOWN ∧
    lookup_string [] 9 2 = none ∧
    parse_event wStV1 (3 :: (to_varint 0 ++ to_varint 2 ++ to_varint 1 ++
      to_varint 7 ++ [])) = .fail :=
  string_reference_resolution [] 9 2 wStV1 wRun5 0 2 1 7 []
    (by decide) rfl rfl rfl (by decide) rfl


theorem wire_bytes_ne_nil (w : Wire) : wire_bytes w ≠ [] := by
  cases w <;> simp [wire_bytes]

theorem bytes_of_wires_nil : bytes_of_wires [] = [] := rfl

theorem bytes_of_wires_cons (w : Wire) (ws : List Wire) :
    bytes_of_wires (w :: ws) = wire_bytes w ++ bytes_of_wires ws := by
  simp [bytes_of_wires]

theorem bytes_of_wires_append (xs ys : List Wire) :
    bytes_of_wires (xs ++ ys) = bytes_of_wires xs ++ bytes_of_wires ys := by
  simp [bytes_of_wires]

theorem IterOK_nil (r : RState) : IterOK r [] (pendingOf r) := by
  intro fuel hf
  cases fuel with
  | zero => omega
  | succ f =>
    have h : parse_event r [] = .eof := rfl
    simp only [iter_events_fuel, h, pendingOf]
    cases r.running <;> rfl

theorem IterOK_step {r r' : RState} {e : PEvent} {w B : List Nat}
    {out : List AustinEvent}
    (hw : w ≠ [])
    (hpe : parse_event r (w ++ B) = .ok e r' B)
    (hnext : IterOK r' B out) :
    IterOK r (w ++ B) (emit_of e r' ++ out) := by
  intro fuel hf
  cases fuel with
  | zero => omega
  | succ f =>
    have hfB : B.length < f := by
      have h1 : w.length ≥ 1 := by
        cases w with
        | nil => exact absurd rfl hw
        | cons a l => simp
      simp only [List.length_append] at hf
      omega
    simp only [iter_events_fuel, hpe]
    rw [hnext f hfB]
    rfl

theorem strNumbered_bounds : ∀ (l : List (ByteStr × MojoString)) (n : Nat),
    strNumbered n l → ∀ pr ∈ l, (n : Int) ≤ pr.2.key ∧ pr.2.key < (n : Int) + l.length := by
  intro l
  induction l with
  | nil => intro n _ pr hpr; cases hpr
  | cons hd rest ih =>
    intro n hnum pr hpr
    obtain ⟨h1, _, h3⟩ := hnum
    cases hpr with
    | head =>
      rw [h1]
      simp only [List.length_cons]
      push_cast
      omega
    | tail _ hmem =>
      have := ih (n + 1) h3 pr hmem
      simp only [List.length_cons] at this ⊢
      push_cast at this ⊢
      omega

theorem frNumbered_bounds : ∀ (l : List (AustinFrame × MojoFrame)) (n : Nat),
    frNumbered n l → ∀ pr ∈ l, (n : Int) ≤ pr.2.key ∧ pr.2.key < (n : Int) + l.length := by
  intro l
  induction l with
  | nil => intro n _ pr hpr; cases hpr
  | cons hd rest ih =>
    intro n hnum pr hpr
    obtain ⟨h1, h3⟩ := hnum
    cases hpr with
    | head =>
      rw [h1]
      simp only [List.length_cons]
      push_cast
      omega
    | tail _ hmem =>
      have := ih (n + 1) h3 pr hmem
      simp only [List.length_cons] at this ⊢
      push_cast at this ⊢
      omega

theorem strNumbered_append : ∀ (l : List (ByteStr × MojoString)) (n : Nat) (v : ByteStr),
    strNumbered n l →
    strNumbered n (l ++ [(v, MojoString.mk ((n : Int) + l.length) v)]) := by
  intro l
  induction l with
  | nil =>
    intro n v _
    refine ⟨by simp, rfl, trivial⟩
  | cons hd rest ih =>
    intro n v hnum
    obtain ⟨h1, h2, h3⟩ := hnum
    refine ⟨h1, h2, ?_⟩
    have hkey : (n : Int) + ((hd :: rest).length : Int) =
        ((n + 1 : Nat) : Int) + (rest.length : Int) := by
      simp only [List.length_cons]
      push_cast
      ring
    rw [hkey]
    exact ih (n + 1) v h3

theorem frNumbered_append : ∀ (l : List (AustinFrame × MojoFrame)) (n : Nat)
    (af : AustinFrame) (mf : MojoFrame), frNumbered n l → mf.key = (n : Int) + l.length →
    frNumbered n (l ++ [(af, mf)]) := by
  intro l
  induction l with
  | nil =>
    intro n af mf _ hk
    refine ⟨by simp [hk], trivial⟩
  | cons hd rest ih =>
    intro n af mf hnum hk
    obtain ⟨h1, h3⟩ := hnum
    refine ⟨h1, ?_⟩
    apply ih (n + 1) af mf h3
    rw [hk]
    simp only [List.length_cons]
    push_cast
    ring

theorem strNumbered_mem_unique : ∀ (l : List (ByteStr × MojoString)) (n : Nat),
    strNumbered n l → ∀ p1 ∈ l, ∀ p2 ∈ l, p1.2.key = p2.2.key → p1 = p2 := by
  intro l
  induction l with
  | nil => intro n _ p1 hp1; cases hp1
  | cons hd rest ih =>
    intro n hnum p1 hp1 p2 hp2 hkey
    obtain ⟨h1, _, h3⟩ := hnum
    cases hp1 with
    | head =>
      cases hp2 with
      | head => rfl
      | tail _ hmem =>
        have := (strNumbered_bounds rest (n + 1) h3 p2 hmem).1
        rw [← hkey, h1] at this
        push_cast at this
        omega
    | tail _ hmem1 =>
      cases hp2 with
      | head =>
        have := (strNumbered_bounds rest (n + 1) h3 p1 hmem1).1
        rw [hkey, h1] at this
        push_cast at this
        omega
      | tail _ hmem2 => exact ih (n + 1) h3 p1 hmem1 p2 hmem2 hkey

theorem frNumbered_mem_unique : ∀ (l : List (AustinFrame × MojoFrame)) (n : Nat),
    frNumbered n l → ∀ p1 ∈ l, ∀ p2 ∈ l, p1.2.key = p2.2.key → p1 = p2 := by
  intro l
  induction l with
  | nil => intro n _ p1 hp1; cases hp1
  | cons hd rest ih =>
    intro n hnum p1 hp1 p2 hp2 hkey
    obtain ⟨h1, h3⟩ := hnum
    cases hp1 with
    | head =>
      cases hp2 with
      | head => rfl
      | tail _ hmem =>
        have := (frNumbered_bounds rest (n + 1) h3 p2 hmem).1
        rw [← hkey, h1] at this
        push_cast at this
        omega
    | tail _ hmem1 =>
      cases hp2 with
      | head =>
        have := (frNumbered_bounds rest (n + 1) h3 p1 hmem1).1
        rw [hkey, h1] at this
        push_cast at this
        omega
      | tail _ hmem2 => exact ih (n + 1) h3 p1 hmem1 p2 hmem2 hkey

theorem parse_event_metadataW (r : RState) (n v : ByteStr) (B : List Nat)
    (hn : validStr n) (hv : validStr v) :
    parse_event r (wire_bytes (.metadataW n v) ++ B) =
      .ok (.metadataEv n v) { r with metadata := dictSet r.metadata n v } B := by
  obtain ⟨hn0, hn1⟩ := hn
  obtain ⟨hv0, hv1⟩ := hv
  simp only [wire_bytes, List.cons_append, parse_event, reduceIte, List.append_assoc,
    List.singleton_append, List.nil_append]
  simp only [parse_metadata_core, Option.bind_eq_bind]
  rw [read_str_spec n (v ++ 0 :: B) hn0 hn1]
  simp only [Option.some_bind]
  rw [read_str_spec v B hv0 hv1]
  rfl

theorem parse_event_stackW (r : RState) (pid iid : Int) (tid : ByteStr) (B : List Nat)
    (hver : r.version = 3) (ht : validStr tid) :
    parse_event r (wire_bytes (.stackW pid iid tid) ++ B) =
      .ok .stackEv { r with
        running := some (RunningSample.mk pid tid (some iid) [] none none none none),
        samples := (match r.running with
          | some x => r.samples ++ [finalize_sample x]
          | none => r.samples) } B := by
  obtain ⟨ht0, ht1⟩ := ht
  simp only [wire_bytes, List.cons_append, parse_event, reduceIte, List.append_assoc,
    List.singleton_append, List.nil_append]
  simp only [parse_stack_core, Option.bind_eq_bind, read_int_to_varint_spec, Option.some_bind,
    hver]
  rw [if_pos (by omega : (3 : Int) ≥ 3)]
  simp only [Option.map_some', Option.some_bind, read_int_to_varint_spec]
  rw [read_str_spec tid B ht0 ht1]
  rfl

theorem parse_event_stringW (r : RState) (ρ : RunningSample) (k : Int) (v : ByteStr)
    (B : List Nat) (hrun : r.running = some ρ) (hv : validStr v) :
    parse_event r (wire_bytes (.stringW k v) ++ B) =
      .ok .otherEv { r with string_map := dictSet r.string_map (ρ.pid, k) (MojoString.mk k v) } B := by
  obtain ⟨hv0, hv1⟩ := hv
  simp only [wire_bytes, List.cons_append, parse_event, reduceIte, List.append_assoc,
    List.singleton_append, List.nil_append]
  simp only [parse_string_core, Option.bind_eq_bind, read_int_to_varint_spec, Option.some_bind]
  rw [read_str_spec v B hv0 hv1]
  simp only [Option.some_bind, hrun]
  rfl

theorem parse_event_frameW (r : RState) (ρ : RunningSample)
    (k fk sk l le c ce : Int) (B : List Nat) (fname sname : MojoString)
    (hver : r.version = 3) (hrun : r.running = some ρ)
    (hf : lookup_string r.string_map ρ.pid fk = some fname)
    (hs : lookup_string r.string_map ρ.pid sk = some sname) :
    parse_event r (wire_bytes (.frameW k fk sk l le c ce) ++ B) =
      .ok .otherEv { r with frame_map := dictSet r.frame_map (ρ.pid, k) (MojoFrame.mk k fname sname l (some le) (some c) (some ce)) } B := by
  simp only [wire_bytes, List.cons_append, parse_event, reduceIte, List.append_assoc]
  simp only [parse_frame_core, Option.bind_eq_bind, read_int_to_varint_spec, Option.some_bind,
    hver, hrun, hf, hs]
  rw [if_neg (by omega : ¬ (3 : Int) = 1)]
  simp only [read_int_to_varint_spec, Option.some_bind]
  rfl

theorem parse_event_frameRefW (r : RState) (ρ : RunningSample) (k : Int)
    (B : List Nat) (mf : MojoFrame)
    (hrun : r.running = some ρ) (hmf : dictFind r.frame_map (ρ.pid, k) = some mf) :
    parse_event r (wire_bytes (.frameRefW k) ++ B) =
      .ok .otherEv { r with running := some { ρ with frames := ρ.frames ++ [mf] } } B := by
  simp only [wire_bytes, List.cons_append, parse_event, reduceIte, List.append_assoc]
  simp only [parse_frame_ref_core, Option.bind_eq_bind, read_int_to_varint_spec,
    Option.some_bind, hrun, hmf]
  rfl

theorem parse_event_gcW (r : RState) (ρ : RunningSample) (B : List Nat)
    (hrun : r.running = some ρ) :
    parse_event r (wire_bytes .gcW ++ B) =
      .ok .otherEv { r with running := some { ρ with gc := some true } } B := by
  simp only [wire_bytes, List.cons_append, parse_event, reduceIte, List.nil_append]
  simp only [parse_gc_core, Option.bind_eq_bind, hrun, Option.some_bind]
  rfl

theorem parse_event_idleW (r : RState) (ρ : RunningSample) (B : List Nat)
    (hrun : r.running = some ρ) :
    parse_event r (wire_bytes .idleW ++ B) =
      .ok .otherEv { r with running := some { ρ with idle := some true } } B := by
  simp only [wire_bytes, List.cons_append, parse_event, reduceIte, List.nil_append]
  simp only [parse_idle_core, Option.bind_eq_bind, hrun, Option.some_bind]
  rfl

theorem parse_event_metricW (r : RState) (ρ : RunningSample) (isTime : Bool) (v : Int)
    (B : List Nat) (hrun : r.running = some ρ) :
    parse_event r (wire_bytes (.metricW isTime v) ++ B) =
      .ok .otherEv { r with running := some (if isTime then { ρ with mtime := some v }
        else { ρ with mmemory := some v }) } B := by
  cases isTime
  · simp only [wire_bytes, Bool.false_eq_true, if_neg, List.cons_append, parse_event,
      reduceIte, List.append_assoc]
    simp only [parse_metric_core, Option.bind_eq_bind, read_int_to_varint_spec,
      Option.some_bind, hrun]
    rfl
  · simp only [wire_bytes, if_pos, List.cons_append, parse_event, reduceIte,
      List.append_assoc]
    simp only [parse_metric_core, Option.bind_eq_bind, read_int_to_varint_spec,
      Option.some_bind, hrun]
    rfl

end Mojo

namespace Stats

mutual

theorem combine_inv (a b : HS) (ha : invHS a = true) (hb : invHS b = true) :
    invHS (combine a b) = true ∧ (combine a b).label = a.label ∧
      (combine a b).total.value =
        a.total.value + (if a.label = b.label then b.total.value else 0) := by
  match a, b with
  | .mk la oa ta ca hta, .mk lb ob tb cb htb =>
    rw [combine]
    simp only [invHS, Bool.and_eq_true, decide_eq_true_eq] at ha hb
    by_cases hl : la = lb
    · rw [if_neg (not_not_intro hl)]
      obtain ⟨hsum, hchildren⟩ := combineChildren_inv ca cb ha.2 hb.2
      refine ⟨?_, by simp [HS.label], ?_⟩
      · simp only [invHS, Bool.and_eq_true, decide_eq_true_eq]
        refine ⟨?_, hsum⟩
        simp only [Metric.add, hchildren]
        have h1 := ha.1
        have h2 := hb.1
        omega
      · simp only [HS.total, HS.label, Metric.add]
        rw [if_pos hl]
    · rw [if_pos hl]
      refine ⟨?_, by simp [HS.label], ?_⟩
      · simp only [invHS, Bool.and_eq_true, decide_eq_true_eq]
        exact ha
      · simp only [HS.total, HS.label]
        rw [if_neg hl]
        omega
  termination_by (sizeOf b, 0)

theorem combineChildren_inv (ca cb : List (SLabel × HS))
    (ha : invChildren ca = true) (hb : invChildren cb = true) :
    invChildren (combineChildren ca cb) = true ∧
      sumTotals (combineChildren ca cb) = sumTotals ca + sumTotals cb := by
  match cb with
  | [] =>
    rw [combineChildren]
    exact ⟨ha, by simp [sumTotals]⟩
  | (k, c) :: rest =>
    rw [combineChildren]
    simp only [invChildren, Bool.and_eq_true, decide_eq_true_eq] at hb
    obtain ⟨⟨hkc, hc⟩, hrest⟩ := hb
    obtain ⟨h1, h2⟩ := combineChild_inv ca k c ha hkc hc
    obtain ⟨h3, h4⟩ := combineChildren_inv (combineChild ca k c) rest h1 hrest
    refine ⟨h3, ?_⟩
    rw [h4, h2]
    simp only [sumTotals]
    omega
  termination_by (sizeOf cb, 0)

theorem combineChild_inv (ca : List (SLabel × HS)) (key : SLabel) (c : HS)
    (ha : invChildren ca = true) (hk : c.label = key) (hc : invHS c = true) :
    invChildren (combineChild ca key c) = true ∧
      sumTotals (combineChild ca key c) = sumTotals ca + c.total.value := by
  match ca with
  | [] =>
    rw [combineChild]
    constructor
    · simp only [invChildren, Bool.and_eq_true, decide_eq_true_eq]
      exact ⟨⟨hk, hc⟩, trivial⟩
    · simp only [sumTotals]
      omega
  | (k, a) :: rest =>
    rw [combineChild]
    simp only [invChildren, Bool.and_eq_true, decide_eq_true_eq] at ha
    obtain ⟨⟨hka, haa⟩, hrest⟩ := ha
    by_cases hkk : k = key
    · rw [if_pos hkk]
      obtain ⟨g1, g2, g3⟩ := combine_inv a c haa hc
      have hlab : a.label = c.label := by rw [hka, hk, hkk]
      constructor
      · simp only [invChildren, Bool.and_eq_true, decide_eq_true_eq]
        exact ⟨⟨by rw [g2, hka], g1⟩, hrest⟩
      · simp only [sumTotals]
        rw [g3, if_pos hlab]
        omega
    · rw [if_neg hkk]
      obtain ⟨h1, h2⟩ := combineChild_inv rest key c hrest hk hc
      constructor
      · simp only [invChildren, Bool.and_eq_true, decide_eq_true_eq]
        exact ⟨⟨hka, haa⟩, h1⟩
      · simp only [sumTotals]
        rw [h2]
        omega
  termination_by (sizeOf c, sizeOf ca)

end

mutual

theorem invHS_law (a : HS) (h : invHS a = true) : lawHS a = true := by
  match a with
  | .mk l o t c ht =>
    simp only [invHS, Bool.and_eq_true] at h
    simp only [lawHS, Bool.and_eq_true]
    exact ⟨h.1, invChildren_law c h.2⟩

theorem invChildren_law (c : List (SLabel × HS)) (h : invChildren c = true) :
    lawChildren c = true := by
  match c with
  | [] => rfl
  | (k, x) :: rest =>
    simp only [invChildren, Bool.and_eq_true] at h
    simp only [lawChildren, Bool.and_eq_true]
    exact ⟨invHS_law x h.1.2, invChildren_law rest h.2⟩

end

theorem invStats_lawStats (st : AustinStats) (h : invStats st = true) :
    lawStats st = true := by
  rw [invStats, List.all_eq_true] at h
  rw [lawStats, List.all_eq_true]
  intro pr hpr
  have h1 := h pr hpr
  rw [List.all_eq_true] at h1 ⊢
  intro th hth
  exact invHS_law _ (h1 th hth)

theorem framesChain_facts (m zero : Metric) (hz : zero.value = 0) :
    ∀ (rest : List Frame) (h : Nat) (f : Frame),
      invHS (framesChain m zero h f rest) = true ∧
      (framesChain m zero h f rest).total.value = m.value ∧
      (framesChain m zero h f rest).label = .frame f := by
  intro rest
  induction rest with
  | nil =>
    intro h f
    rw [framesChain]
    refine ⟨?_, rfl, rfl⟩
    simp only [invHS, invChildren, Bool.and_eq_true, decide_eq_true_eq, sumTotals]
    exact ⟨by omega, trivial⟩
  | cons g rest ih =>
    intro h f
    rw [framesChain]
    obtain ⟨i1, i2, i3⟩ := ih (h + 1) g
    refine ⟨?_, rfl, rfl⟩
    simp only [invHS, invChildren, Bool.and_eq_true, decide_eq_true_eq, sumTotals]
    exact ⟨by rw [i2]; omega, ⟨⟨i3, i1⟩, trivial⟩⟩

theorem samplePath_inv (s : Sample) : invHS (samplePath s) = true := by
  rw [samplePath]
  cases hf : s.frames with
  | nil =>
    simp only [invHS, invChildren, Bool.and_eq_true, decide_eq_true_eq, sumTotals]
    exact ⟨by omega, trivial⟩
  | cons f rest =>
    obtain ⟨i1, i2, i3⟩ := framesChain_facts s.metric ⟨s.metric.type, 0⟩ rfl rest 0 f
    simp only [invHS, invChildren, Bool.and_eq_true, decide_eq_true_eq, sumTotals]
    exact ⟨by rw [i2]; omega, ⟨⟨i3, i1⟩, trivial⟩⟩

theorem update_inv (st : AustinStats) (s : Sample) (h : invStats st = true) :
    invStats (update st s) = true := by
  rw [invStats, List.all_eq_true] at h
  rw [update]
  cases hfind : dictFind st.processes s.pid with
  | none =>
    rw [invStats]
    simp only []
    apply all_dictSet
    · rw [List.all_eq_true]; exact h
    · simp only [List.all_cons, List.all_nil, Bool.and_eq_true]
      exact ⟨samplePath_inv s, trivial⟩
  | some proc =>
    have hthreads := h _ (dictFind_mem hfind)
    rw [List.all_eq_true] at hthreads
    cases hth : dictFind proc.threads s.thread with
    | none =>
      rw [invStats]
      simp only [hth]
      apply all_dictSet
      · rw [List.all_eq_true]; exact h
      · simp only []
        apply all_dictSet
        · rw [List.all_eq_true]; exact fun x hx => hthreads x hx
        · exact samplePath_inv s
    | some ts =>
      rw [invStats]
      simp only [hth]
      apply all_dictSet
      · rw [List.all_eq_true]; exact h
      · simp only []
        apply all_dictSet
        · rw [List.all_eq_true]; exact fun x hx => hthreads x hx
        · exact (combine_inv ts (samplePath s) (hthreads _ (dictFind_mem hth))
            (samplePath_inv s)).1

theorem foldl_update_inv (samples : List Sample) :
    ∀ (st : AustinStats), invStats st = true →
      invStats (List.foldl update st samples) = true := by
  induction samples with
  | nil => intro st h; exact h
  | cons s rest ih => intro st h; exact ih _ (update_inv st s h)

/-- Claim C3: after any finite sequence of AustinStats.update calls starting
from an empty AustinStats, every HierarchicalStats node reachable through
processes → threads → children satisfies total == own + Σ child.total. -/
theorem updates_preserve_total_law (τ : AustinStatsType) (samples : List Sample) :
    lawStats (List.foldl update (emptyStats τ) samples) = true :=
  invStats_lawStats _ (foldl_update_inv samples (emptyStats τ) rfl)

theorem dictFind_combineChild (ca : List (SLabel × HS)) (key : SLabel) (c : HS) (k : SLabel) :
    dictFind (combineChild ca key c) k =
      if key = k then
        match dictFind ca key with
        | some x => some (combine x c)
        | none => some c
      else dictFind ca k := by
  induction ca with
  | nil =>
    by_cases h : key = k <;> simp [combineChild, dictFind, h]
  | cons kw rest ih =>
    obtain ⟨k0, a⟩ := kw
    by_cases h0 : k0 = key
    · subst h0
      by_cases h : k0 = k
      · subst h
        simp [combineChild, dictFind]
      · simp [combineChild, dictFind, h]
    · by_cases h : k0 = k
      · subst h
        simp [combineChild, dictFind, h0, Ne.symm h0]
      · simp [combineChild, dictFind, h0, h, ih]

theorem dictFind_combineChildren (cb : List (SLabel × HS))
    (hnd : (cb.map Prod.fst).Nodup) :
    ∀ (ca : List (SLabel × HS)) (k : SLabel),
    dictFind (combineChildren ca cb) k =
      match dictFind ca k, dictFind cb k with
      | some x, some y => some (combine x y)
      | some x, none => some x
      | none, some y => some y
      | none, none => none := by
  induction cb with
  | nil =>
    intro ca k
    rw [combineChildren]
    simp only [dictFind]
    cases dictFind ca k <;> rfl
  | cons kc rest ih =>
    obtain ⟨k0, c0⟩ := kc
    simp only [List.map_cons, List.nodup_cons] at hnd
    intro ca k
    rw [combineChildren, ih hnd.2]
    rw [dictFind_combineChild]
    by_cases h : k0 = k
    · subst h
      rw [if_pos rfl]
      have hrest : dictFind rest k0 = none := dictFind_eq_none_of_not_mem hnd.1
      rw [hrest]
      simp only [dictFind, if_pos rfl]
      cases dictFind ca k0 <;> rfl
    · rw [if_neg h]
      simp only [dictFind, if_neg h]

/-- Claim C4: merging b into a (HierarchicalStats.__lshift__, a << b) with
differing labels returns a unchanged — a silent no-op, not an error; with
equal labels it adds b.own to a.own and b.total to a.total, recursively
combines children with matching labels and adopts b's unmatched subtrees
(the dict of a genuine Python object has no duplicate keys, whence the
Nodup hypothesis on b's children). -/
theorem combine_merge_semantics (a b : HS)
    (hnd : ((b.children).map Prod.fst).Nodup) :
    (a.label ≠ b.label → combine a b = a) ∧
    (a.label = b.label →
      (combine a b).own = a.own.add b.own ∧
      (combine a b).total = a.total.add b.total ∧
      (combine a b).label = a.label ∧
      (combine a b).height = a.height ∧
      ∀ k, dictFind (combine a b).children k =
        match dictFind a.children k, dictFind b.children k with
        | some x, some y => some (combine x y)
        | some x, none => some x
        | none, some y => some y
        | none, none => none) := by
  match a, b with
  | .mk la oa ta ca hta, .mk lb ob tb cb htb =>
    simp only [HS.label, HS.own, HS.total, HS.children, HS.height] at *
    constructor
    · intro hne
      rw [combine, if_pos hne]
    · intro heq
      rw [combine, if_neg (not_not_intro heq)]
      refine ⟨rfl, rfl, rfl, rfl, ?_⟩
      intro k
      simp only [HS.children]
      exact dictFind_combineChildren cb hnd ca k

/-- Witness for combine_merge_semantics at concrete inputs: a pair of
two-node trees with equal root labels. -/
theorem combine_merge_semantics_witness :
    (((HS.mk (.thread "t") (Metric.mk .time 2) (Metric.mk .time 5)
        [(.frame (Frame.mk "g" "b.py" 3), HS.mk (.frame (Frame.mk "g" "b.py" 3))
          (Metric.mk .time 3) (Metric.mk .time 3) [] 0)] 0).children.map Prod.fst).Nodup) ∧
    ((HS.mk (.thread "t") (Metric.mk .time 1) (Metric.mk .time 1) [] 0).label ≠
        (HS.mk (.thread "u") (Metric.mk .time 2) (Metric.mk .time 5) [] 0).label →
      combine (HS.mk (.thread "t") (Metric.mk .time 1) (Metric.mk .time 1) [] 0)
          (HS.mk (.thread "u") (Metric.mk .time 2) (Metric.mk .time 5) [] 0) =
        HS.mk (.thread "t") (Metric.mk .time 1) (Metric.mk .time 1) [] 0) :=
  ⟨by decide,
   (combine_merge_semantics
      (HS.mk (.thread "t") (Metric.mk .time 1) (Metric.mk .time 1) [] 0)
      (HS.mk (.thread "u") (Metric.mk .time 2) (Metric.mk .time 5) [] 0)
      (by decide)).1⟩

/-- Claim C9 as stated is false: ProcessStats.get_thread on a missing thread
name returns Python None as an ordinary value (Option.none here), exactly as
its own docstring promises ("then None is returned"), rather than raising a
lookup error.  In this embedding raising accessors live in Except (compare
AustinStats.get_process) while .get-style accessors return the Python
None/Option value; get_thread below returns normally. -/
theorem get_thread_returns_none_counterexample :
    ProcessStats.get_thread (ProcessStats.mk 7 []) "main" = none := rfl

/-- Claim C9, amended: AustinStats.get_process on a missing pid raises a
KeyError (a lookup error, not a default-construct), while
ProcessStats.get_thread on a missing thread name returns None — a normal
return signalling absence, neither an error nor a default-construct. -/
theorem lookup_accessors_amended (st : AustinStats) (p : ProcessStats)
    (pid : Int) (name : String)
    (h1 : dictFind st.processes pid = none) (h2 : dictFind p.threads name = none) :
    st.get_process pid = .error () ∧ p.get_thread name = none := by
  constructor
  · rw [AustinStats.get_process, h1]
  · rw [ProcessStats.get_thread, h2]

theorem lookup_accessors_amended_witness :
    (AustinStats.mk .wall []).get_process 7 = .error () ∧
      (ProcessStats.mk 7 []).get_thread "main" = none :=
  lookup_accessors_amended (AustinStats.mk .wall []) (ProcessStats.mk 7 []) 7 "main" rfl rfl

/-- Claim C10: AustinStats.update touches at most the entry
processes[s.pid].threads[s.thread]: the stats_type field is unchanged, every
other process entry is unchanged, within the touched process the pid field
and every other thread entry are unchanged, and the touched thread entry is
created from the sample's single-path tree when absent and merged with it
otherwise; an absent process gets a fresh single-thread ProcessStats. -/
theorem update_frame_effect (st : AustinStats) (s : Sample) :
    (update st s).stats_type = st.stats_type ∧
    (∀ pid, pid ≠ s.pid →
      dictFind (update st s).processes pid = dictFind st.processes pid) ∧
    (dictFind st.processes s.pid = none →
      dictFind (update st s).processes s.pid =
        some (ProcessStats.mk s.pid [(s.thread, samplePath s)])) ∧
    (∀ proc, dictFind st.processes s.pid = some proc →
      ∃ proc', dictFind (update st s).processes s.pid = some proc' ∧
        proc'.pid = proc.pid ∧
        (∀ t, t ≠ s.thread → dictFind proc'.threads t = dictFind proc.threads t) ∧
        dictFind proc'.threads s.thread =
          some (match dictFind proc.threads s.thread with
                | none => samplePath s
                | some ts => combine ts (samplePath s))) := by
  cases hfind : dictFind st.processes s.pid with
  | none =>
    have hupd : update st s = AustinStats.mk st.stats_type
        (dictSet st.processes s.pid (ProcessStats.mk s.pid [(s.thread, samplePath s)])) := by
      rw [update]
      simp only [hfind]
    rw [hupd]
    refine ⟨rfl, ?_, ?_, ?_⟩
    · intro pid hpid
      show dictFind (dictSet st.processes s.pid
        (ProcessStats.mk s.pid [(s.thread, samplePath s)])) pid = dictFind st.processes pid
      rw [dictFind_dictSet, if_neg (fun hk => hpid hk.symm)]
    · intro _
      show dictFind (dictSet st.processes s.pid
          (ProcessStats.mk s.pid [(s.thread, samplePath s)])) s.pid =
        some (ProcessStats.mk s.pid [(s.thread, samplePath s)])
      rw [dictFind_dictSet, if_pos rfl]
    · intro proc hproc
      cases hproc
  | some proc =>
    cases hth : dictFind proc.threads s.thread with
    | none =>
      have hupd : update st s = AustinStats.mk st.stats_type
          (dictSet st.processes s.pid
            (ProcessStats.mk proc.pid (dictSet proc.threads s.thread (samplePath s)))) := by
        rw [update]
        simp only [hfind, hth]
      rw [hupd]
      refine ⟨rfl, ?_, ?_, ?_⟩
      · intro pid hpid
        show dictFind (dictSet st.processes s.pid
            (ProcessStats.mk proc.pid (dictSet proc.threads s.thread (samplePath s)))) pid =
          dictFind st.processes pid
        rw [dictFind_dictSet, if_neg (fun hk => hpid hk.symm)]
      · intro hnone
        cases hnone
      · intro proc0 hproc0
        cases hproc0
        refine ⟨ProcessStats.mk proc.pid (dictSet proc.threads s.thread (samplePath s)),
          ?_, rfl, ?_, ?_⟩
        · show dictFind (dictSet st.processes s.pid
              (ProcessStats.mk proc.pid (dictSet proc.threads s.thread (samplePath s)))) s.pid = _
          rw [dictFind_dictSet, if_pos rfl]
        · intro t ht
          show dictFind (dictSet proc.threads s.thread (samplePath s)) t = dictFind proc.threads t
          rw [dictFind_dictSet, if_neg (fun hk => ht hk.symm)]
        · show dictFind (dictSet proc.threads s.thread (samplePath s)) s.thread = _
          rw [dictFind_dictSet, if_pos rfl, hth]
    | some ts =>
      have hupd : update st s = AustinStats.mk st.stats_type
          (dictSet st.processes s.pid
            (ProcessStats.mk proc.pid
              (dictSet proc.threads s.thread (combine ts (samplePath s))))) := by
        rw [update]
        simp only [hfind, hth]
      rw [hupd]
      refine ⟨rfl, ?_, ?_, ?_⟩
      · intro pid hpid
        show dictFind (dictSet st.processes s.pid
            (ProcessStats.mk proc.pid
              (dictSet proc.threads s.thread (combine ts (samplePath s))))) pid =
          dictFind st.processes pid
        rw [dictFind_dictSet, if_neg (fun hk => hpid hk.symm)]
      · intro hnone
        cases hnone
      · intro proc0 hproc0
        cases hproc0
        refine ⟨ProcessStats.mk proc.pid
            (dictSet proc.threads s.thread (combine ts (samplePath s))), ?_, rfl, ?_, ?_⟩
        · show dictFind (dictSet st.processes s.pid
              (ProcessStats.mk proc.pid
                (dictSet proc.threads s.thread (combine ts (samplePath s))))) s.pid = _
          rw [dictFind_dictSet, if_pos rfl]
        · intro t ht
          show dictFind (dictSet proc.threads s.thread (combine ts (samplePath s))) t =
            dictFind proc.threads t
          rw [dictFind_dictSet, if_neg (fun hk => ht hk.symm)]
        · show dictFind (dictSet proc.threads s.thread (combine ts (samplePath s))) s.thread = _
          rw [dictFind_dictSet, if_pos rfl, hth]

/-- Witness for update_frame_effect at a concrete state and sample,
discharging the inner implications at concrete keys. -/
theorem update_frame_effect_witness :
    dictFind (update (AustinStats.mk .wall [(9, ProcessStats.mk 9 [])])
        (Sample.mk 3 "t" (Metric.mk .time 5) [])).processes 9 =
      dictFind (AustinStats.mk .wall [(9, ProcessStats.mk 9 [])]).processes 9 :=
  ((update_frame_effect (AustinStats.mk .wall [(9, ProcessStats.mk 9 [])])
      (Sample.mk 3 "t" (Metric.mk .time 5) [])).2.1 9 (by decide))

end Stats


namespace Mojo

theorem strNumbered_value : ∀ (l : List (ByteStr × MojoString)) (n : Nat),
    strNumbered n l → ∀ pr ∈ l, pr.2.value = pr.1 := by
  intro l
  induction l with
  | nil => intro n _ pr hpr; cases hpr
  | cons hd rest ih =>
    intro n hnum pr hpr
    obtain ⟨_, h2, h3⟩ := hnum
    cases hpr with
    | head => exact h2
    | tail _ hmem => exact ih (n + 1) h3 pr hmem

theorem lookup_string_mono {m1 m2 : List ((Int × Int) × MojoString)} {p k : Int}
    {s : MojoString}
    (hmono : ∀ q t, dictFind m1 q = some t → dictFind m2 q = some t)
    (h : lookup_string m1 p k = some s) : lookup_string m2 p k = some s := by
  rw [lookup_string] at h ⊢
  by_cases hk : k = 1
  · rw [if_pos hk] at h ⊢
    exact h
  · rw [if_neg hk] at h ⊢
    exact hmono _ _ h

theorem IterOK_step_other {r r' : RState} {w B : List Nat} {out : List AustinEvent}
    (hw : w ≠ [])
    (hpe : parse_event r (w ++ B) = .ok .otherEv r' B)
    (hnext : IterOK r' B out) :
    IterOK r (w ++ B) out := by
  have h := IterOK_step hw hpe hnext
  simpa only [emit_of, List.nil_append] using h

theorem resolve_string_sim (p : Int) (w : WState) (r : RState) (x : RunningSample)
    (v : ByteStr) (s : MojoString) (w' : WState)
    (heq : resolve_string w v = (s, w'))
    (hver : r.version = 3) (hrun : r.running = some x) (hp : x.pid = p)
    (hstr : SimInvStr p w r)
    (hv : validStr v) (hv0 : v ≠ []) :
    ∃ δ r', w'.new_entries = w.new_entries ++ δ ∧
      (∀ B out, IterOK r' B out → IterOK r (bytes_of_wires δ ++ B) out) ∧
      SimInvStr p w' r' ∧
      r'.version = r.version ∧ r'.frame_map = r.frame_map ∧ r'.running = r.running ∧
      r'.samples = r.samples ∧ r'.metadata = r.metadata ∧
      (∀ q t, dictFind r.string_map q = some t → dictFind r'.string_map q = some t) ∧
      lookup_string r'.string_map p s.key = some s ∧
      s.value = v ∧
      w'.frames = w.frames ∧ w'.mode = w.mode ∧ w'.gcFlag = w.gcFlag ∧ w'.meta = w.meta ∧
      w.strings.length ≤ w'.strings.length := by
  obtain ⟨⟨rest2, hshape⟩, hnum, hreg, hdom⟩ := hstr
  rw [resolve_string] at heq
  cases hfind : dictFind w.strings v with
  | some s =>
    rw [hfind] at heq
    cases heq
    refine ⟨[], r, by simp, ?_, ⟨⟨rest2, hshape⟩, hnum, hreg, hdom⟩, rfl, rfl, rfl, rfl,
      rfl, fun q t h => h, ?_, ?_, rfl, rfl, rfl, rfl, le_refl _⟩
    · intro B out h
      simpa only [bytes_of_wires_nil, List.nil_append] using h
    · have hmem : (v, s) ∈ w.strings := dictFind_mem hfind
      have hval : s.value = v := strNumbered_value w.strings 0 hnum (v, s) hmem
      have hbounds := strNumbered_bounds w.strings 0 hnum (v, s) hmem
      simp only at hbounds
      by_cases hk1 : s.key = 1
      · have hmemu : (UNKNOWN.value, UNKNOWN) ∈ w.strings := by
          rw [hshape]
          exact List.mem_cons_of_mem _ (List.mem_cons_self _ _)
        have : (v, s) = (UNKNOWN.value, UNKNOWN) := by
          apply strNumbered_mem_unique w.strings 0 hnum _ hmem _ hmemu
          rw [hk1]
          rfl
        rw [lookup_string, if_pos hk1]
        rw [Prod.mk.injEq] at this
        rw [this.2]
      · by_cases hk0 : s.key = 0
        · exfalso
          have hmem0 : (([] : ByteStr), EMPTY) ∈ w.strings := by
            rw [hshape]
            exact List.mem_cons_self _ _
          have : (v, s) = (([] : ByteStr), EMPTY) := by
            apply strNumbered_mem_unique w.strings 0 hnum _ hmem _ hmem0
            rw [hk0]
            rfl
          rw [Prod.mk.injEq] at this
          exact hv0 this.1
        · have hk2 : s.key ≥ 2 := by omega
          rw [lookup_string, if_neg hk1]
          exact hreg (v, s) hmem hk2
    · exact strNumbered_value w.strings 0 hnum (v, s) (dictFind_mem hfind)
  | none =>
    rw [hfind] at heq
    cases heq
    have hlen2 : w.strings.length ≥ 2 := by
      rw [hshape]
      simp
    have hsetabs : dictSet w.strings v (MojoString.mk (w.strings.length : Int) v) =
        w.strings ++ [(v, MojoString.mk (w.strings.length : Int) v)] :=
      dictSet_absent _ _ _ hfind
    refine ⟨[.stringW (w.strings.length : Int) v],
      { r with string_map := dictSet r.string_map (p, (w.strings.length : Int)) (MojoString.mk (w.strings.length : Int) v) },
      rfl, ?_, ?_, rfl, rfl, rfl, rfl, rfl, ?_, ?_, rfl, rfl, rfl, rfl, rfl, ?_⟩
    · intro B out h
      simp only [bytes_of_wires_cons, bytes_of_wires_nil, List.append_nil,
        List.append_assoc]
      have hpe := parse_event_stringW r x (w.strings.length : Int) v B hrun hv
      rw [hp] at hpe
      exact IterOK_step_other (wire_bytes_ne_nil _) hpe h
    · refine ⟨⟨rest2 ++ [(v, MojoString.mk (w.strings.length : Int) v)], ?_⟩, ?_, ?_, ?_⟩
      · rw [hsetabs, hshape]
        simp
      · rw [hsetabs]
        have := strNumbered_append w.strings 0 v hnum
        simpa using this
      · intro pr hpr hk2
        rw [hsetabs] at hpr
        rw [List.mem_append] at hpr
        cases hpr with
        | inl hold =>
          have hb := strNumbered_bounds w.strings 0 hnum pr hold
          rw [dictFind_dictSet]
          rw [if_neg ?_]
          · exact hreg pr hold hk2
          · intro hq
            rw [Prod.mk.injEq] at hq
            have := hq.2
            omega
        | inr hnew =>
          simp only [List.mem_singleton] at hnew
          rw [hnew]
          rw [dictFind_dictSet, if_pos rfl]
      · intro k t h
        rw [dictFind_dictSet] at h
        rw [hsetabs]
        simp only [List.length_append, List.length_singleton]
        by_cases hq : ((p, (w.strings.length : Int)) : Int × Int) = (p, k)
        · rw [Prod.mk.injEq] at hq
          push_cast
          omega
        · rw [if_neg hq] at h
          have := hdom k t h
          push_cast
          omega
    · intro q t h
      rw [dictFind_dictSet]
      rw [if_neg ?_]
      · exact h
      · intro hq
        rw [← hq] at h
        have := hdom _ _ h
        omega
    · have hne1 : ((w.strings.length : Nat) : Int) ≠ 1 := by
        push_cast
        omega
      rw [lookup_string, if_neg hne1, dictFind_dictSet, if_pos rfl]
    · rw [hsetabs]
      simp

theorem resolve_frame_sim (p : Int) (w : WState) (r : RState) (x : RunningSample)
    (f : AustinFrame) (mf : MojoFrame) (w' : WState)
    (heq : resolve_frame w f = (mf, w'))
    (hver : r.version = 3) (hrun : r.running = some x) (hp : x.pid = p)
    (hstr : SimInvStr p w r) (hfrI : SimInvFr p w r)
    (hvf : validFrame f) :
    ∃ δ r', w'.new_entries = w.new_entries ++ δ ∧
      (∀ B out, IterOK r' B out → IterOK r (bytes_of_wires δ ++ B) out) ∧
      SimInvStr p w' r' ∧ SimInvFr p w' r' ∧
      r'.version = r.version ∧ r'.running = r.running ∧
      r'.samples = r.samples ∧ r'.metadata = r.metadata ∧
      (∀ q t, dictFind r.frame_map q = some t → dictFind r'.frame_map q = some t) ∧
      dictFind r'.frame_map (p, mf.key) = some mf ∧
      frameRel f mf ∧
      w'.mode = w.mode ∧ w'.gcFlag = w.gcFlag ∧ w'.meta = w.meta := by
  obtain ⟨hvfF, hvfS, hneF, hneS⟩ := hvf
  rw [resolve_frame] at heq
  cases hff : dictFind w.frames f with
  | some mf0 =>
    rw [hff] at heq
    cases heq
    obtain ⟨hnum, hreg, hrel, hdom⟩ := hfrI
    have hmem := dictFind_mem hff
    refine ⟨[], r, by simp, ?_, hstr, ⟨hnum, hreg, hrel, hdom⟩, rfl, rfl, rfl, rfl,
      fun q t h => h, hreg _ hmem, hrel _ hmem, rfl, rfl, rfl⟩
    intro B out h
    simpa only [bytes_of_wires_nil, List.nil_append] using h
  | none =>
    rw [hff] at heq
    obtain ⟨fs, w1, h1⟩ : ∃ a b, resolve_string w f.filename = (a, b) := ⟨_, _, rfl⟩
    obtain ⟨ss, w2, h2⟩ : ∃ a b, resolve_string w1 f.function = (a, b) := ⟨_, _, rfl⟩
    simp only [h1, h2] at heq
    cases heq
    obtain ⟨δ1, r1, hE1, hT1, hstr1, hver1, hfm1, hrun1, hsm1, hmd1, hmono1, hlk1, hval1,
      hfrm1, hmode1, hgc1, hmeta1, hlen1⟩ :=
      resolve_string_sim p w r x f.filename fs w1 h1 hver hrun hp hstr hvfF hneF
    obtain ⟨δ2, r2, hE2, hT2, hstr2, hver2, hfm2, hrun2, hsm2, hmd2, hmono2, hlk2, hval2,
      hfrm2, hmode2, hgc2, hmeta2, hlen2⟩ :=
      resolve_string_sim p w1 r1 x f.function ss w2 h2
        (by rw [hver1]; exact hver) (by rw [hrun1]; exact hrun) hp hstr1 hvfS hneS
    have hver2' : r2.version = 3 := by rw [hver2, hver1]; exact hver
    have hrun2' : r2.running = some x := by rw [hrun2, hrun1]; exact hrun
    have hlk1' : lookup_string r2.string_map p fs.key = some fs :=
      lookup_string_mono hmono2 hlk1
    obtain ⟨hnum, hreg, hrel, hdom⟩ := hfrI
    have hffw2 : dictFind w2.frames f = none := by rw [hfrm2, hfrm1]; exact hff
    have hfm2' : r2.frame_map = r.frame_map := by rw [hfm2, hfm1]
    set mf' := MojoFrame.mk (w.frames.length : Int) fs ss f.line
      (some (f.line_end.getD 0)) (some (f.column.getD 0)) (some (f.column_end.getD 0))
      with hmf'
    have hWfr : dictSet w2.frames f mf' = w.frames ++ [(f, mf')] := by
      rw [dictSet_absent _ _ _ hffw2, hfrm2, hfrm1]
    refine ⟨δ1 ++ δ2 ++ [.frameW (w.frames.length : Int) fs.key ss.key f.line
        (f.line_end.getD 0) (f.column.getD 0) (f.column_end.getD 0)],
      { r2 with frame_map := dictSet r2.frame_map (p, (w.frames.length : Int)) mf' },
      ?_, ?_, ?_, ?_, ?_, ?_, ?_, ?_, ?_, ?_, ?_, ?_, ?_, ?_⟩
    · simp only [hE2, hE1, List.append_assoc]
    · intro B out h
      have hpe := parse_event_frameW r2 x (w.frames.length : Int) fs.key ss.key f.line
        (f.line_end.getD 0) (f.column.getD 0) (f.column_end.getD 0) B fs ss hver2' hrun2'
        (by rw [hp]; exact hlk1') (by rw [hp]; exact hlk2)
      rw [hp] at hpe
      have hstep := IterOK_step_other (wire_bytes_ne_nil _) hpe h
      have htop := hT1 _ _ (hT2 _ _ hstep)
      simpa only [bytes_of_wires_append, bytes_of_wires_cons, bytes_of_wires_nil,
        List.append_nil, List.append_assoc] using htop
    · exact hstr2
    · refine ⟨?_, ?_, ?_, ?_⟩
      · rw [hWfr]
        exact frNumbered_append w.frames 0 f mf' hnum (by simp)
      · intro pr hpr
        rw [hWfr] at hpr
        rw [List.mem_append] at hpr
        cases hpr with
        | inl hold =>
          have hb := frNumbered_bounds w.frames 0 hnum pr hold
          rw [dictFind_dictSet, if_neg ?_]
          · rw [hfm2']
            exact hreg pr hold
          · intro hq
            rw [Prod.mk.injEq] at hq
            have := hq.2
            simp only at hb
            omega
        | inr hnew =>
          simp only [List.mem_singleton] at hnew
          rw [hnew]
          rw [dictFind_dictSet, if_pos rfl]
      · intro pr hpr
        rw [hWfr] at hpr
        rw [List.mem_append] at hpr
        cases hpr with
        | inl hold => exact hrel pr hold
        | inr hnew =>
          simp only [List.mem_singleton] at hnew
          rw [hnew]
          exact ⟨hval1, hval2, rfl, rfl, rfl, rfl⟩
      · intro k t h
        rw [dictFind_dictSet] at h
        rw [hWfr]
        simp only [List.length_append, List.length_singleton]
        by_cases hq : ((p, (w.frames.length : Int)) : Int × Int) = (p, k)
        · rw [Prod.mk.injEq] at hq
          push_cast
          omega
        · rw [if_neg hq] at h
          rw [hfm2'] at h
          have := hdom k t h
          push_cast
          omega
    · exact hver2.trans hver1
    · exact hrun2.trans hrun1
    · exact hsm2.trans hsm1
    · exact hmd2.trans hmd1
    · intro q t h
      rw [dictFind_dictSet]
      by_cases hq : ((p, (w.frames.length : Int)) : Int × Int) = q
      · exfalso
        rw [← hq] at h
        rw [← hfm2'] at h
        rw [hfm2'] at h
        have := hdom _ _ h
        omega
      · rw [if_neg hq, hfm2']
        exact h
    · show dictFind (dictSet r2.frame_map (p, (w.frames.length : Int)) mf') (p, mf'.key) =
        some mf'
      rw [dictFind_dictSet, if_pos rfl]
    · exact ⟨hval1, hval2, rfl, rfl, rfl, rfl⟩
    · exact hmode2.trans hmode1
    · exact hgc2.trans hgc1
    · exact hmeta2.trans hmeta1

theorem resolve_frames_sim (p : Int) : ∀ (fl : List AustinFrame) (w : WState) (r : RState)
    (x : RunningSample) (mfs : List MojoFrame) (w' : WState),
    resolve_frames w fl = (mfs, w') →
    r.version = 3 → r.running = some x → x.pid = p →
    SimInvStr p w r → SimInvFr p w r →
    (∀ f ∈ fl, validFrame f) →
    ∃ δ r', w'.new_entries = w.new_entries ++ δ ∧
      (∀ B out, IterOK r' B out → IterOK r (bytes_of_wires δ ++ B) out) ∧
      SimInvStr p w' r' ∧ SimInvFr p w' r' ∧
      r'.version = r.version ∧ r'.running = r.running ∧
      r'.samples = r.samples ∧ r'.metadata = r.metadata ∧
      (∀ q t, dictFind r.frame_map q = some t → dictFind r'.frame_map q = some t) ∧
      List.Forall₂ (fun f mf => dictFind r'.frame_map (p, mf.key) = some mf ∧ frameRel f mf)
        fl mfs ∧
      w'.mode = w.mode ∧ w'.gcFlag = w.gcFlag ∧ w'.meta = w.meta := by
  intro fl
  induction fl with
  | nil =>
    intro w r x mfs w' heq hver hrun hp hstr hfr hval
    rw [resolve_frames] at heq
    cases heq
    refine ⟨[], r, by simp, ?_, hstr, hfr, rfl, rfl, rfl, rfl, fun q t h => h,
      List.Forall₂.nil, rfl, rfl, rfl⟩
    intro B out h
    simpa only [bytes_of_wires_nil, List.nil_append] using h
  | cons f rest ih =>
    intro w r x mfs w' heq hver hrun hp hstr hfr hval
    rw [resolve_frames] at heq
    obtain ⟨mf, w1, h1⟩ : ∃ a b, resolve_frame w f = (a, b) := ⟨_, _, rfl⟩
    obtain ⟨mfs2, w2, h2⟩ : ∃ a b, resolve_frames w1 rest = (a, b) := ⟨_, _, rfl⟩
    simp only [h1, h2] at heq
    cases heq
    obtain ⟨δ1, r1, hE1, hT1, hstr1, hfr1, hver1, hrun1, hsm1, hmd1, hmono1, hreg1, hrel1,
      hmode1, hgc1, hmeta1⟩ :=
      resolve_frame_sim p w r x f mf w1 h1 hver hrun hp hstr hfr
        (hval f (List.mem_cons_self _ _))
    obtain ⟨δ2, r2, hE2, hT2, hstr2, hfr2, hver2, hrun2, hsm2, hmd2, hmono2, hF2, hmode2,
      hgc2, hmeta2⟩ :=
      ih w1 r1 x mfs2 w' h2 (by rw [hver1]; exact hver) (by rw [hrun1]; exact hrun) hp
        hstr1 hfr1 (fun g hg => hval g (List.mem_cons_of_mem _ hg))
    refine ⟨δ1 ++ δ2, r2, ?_, ?_, hstr2, hfr2, hver2.trans hver1, hrun2.trans hrun1,
      hsm2.trans hsm1, hmd2.trans hmd1, fun q t h => hmono2 q t (hmono1 q t h),
      List.Forall₂.cons ⟨hmono2 _ _ hreg1, hrel1⟩ hF2,
      hmode2.trans hmode1, hgc2.trans hgc1, hmeta2.trans hmeta1⟩
    · rw [hE2, hE1]
      simp only [List.append_assoc]
    · intro B out h
      have htop := hT1 _ _ (hT2 _ _ h)
      simpa only [bytes_of_wires_append, List.append_assoc] using htop

theorem forall2_mem_right {α β : Type} {R : α → β → Prop} :
    ∀ {l1 : List α} {l2 : List β}, List.Forall₂ R l1 l2 →
      ∀ b ∈ l2, ∃ a, R a b := by
  intro l1 l2 h
  induction h with
  | nil => intro b hb; cases hb
  | cons hr _ ih =>
    intro b hb
    cases hb with
    | head => exact ⟨_, hr⟩
    | tail _ hmem => exact ih b hmem

theorem frameRel_norm {f : AustinFrame} {mf : MojoFrame} (h : frameRel f mf) :
    mojoFrameToAustin mf = normFrame f := by
  obtain ⟨h1, h2, h3, h4, h5, h6⟩ := h
  rw [mojoFrameToAustin, normFrame, h1, h2, h3, h4, h5, h6]

theorem forall2_norm : ∀ {fl : List AustinFrame} {mfs : List MojoFrame},
    List.Forall₂ (fun f mf => frameRel f mf) fl mfs →
    mfs.map mojoFrameToAustin = fl.map normFrame ∧ (mfs = [] ↔ fl = []) := by
  intro fl mfs h
  induction h with
  | nil => exact ⟨rfl, by simp⟩
  | cons hr _ ih =>
    refine ⟨?_, by simp⟩
    simp only [List.map_cons, ih.1, frameRel_norm hr]

theorem refs_sim (p : Int) : ∀ (mfs : List MojoFrame) (r : RState) (ρ : RunningSample),
    r.running = some ρ → ρ.pid = p →
    (∀ mf ∈ mfs, dictFind r.frame_map (p, mf.key) = some mf) →
    ∀ B out,
      IterOK { r with running := some { ρ with frames := ρ.frames ++ mfs } } B out →
      IterOK r (bytes_of_wires (mfs.map (fun mf => Wire.frameRefW mf.key)) ++ B) out := by
  intro mfs
  induction mfs with
  | nil =>
    intro r ρ hrun hp hmem B out h
    have hρ : ({ ρ with frames := ρ.frames ++ [] } : RunningSample) = ρ := by
      rw [List.append_nil]
    have hr : ({ r with running := some { ρ with frames := ρ.frames ++ [] } } : RState) = r := by
      rw [hρ, ← hrun]
    rw [hr] at h
    simpa only [List.map_nil, bytes_of_wires_nil, List.nil_append] using h
  | cons mf rest ih =>
    intro r ρ hrun hp hmem B out h
    have hpe := parse_event_frameRefW r ρ mf.key
      (bytes_of_wires (rest.map (fun mf => Wire.frameRefW mf.key)) ++ B) mf hrun
      (by rw [hp]; exact hmem mf (List.mem_cons_self _ _))
    have h' : IterOK { r with running := some { ρ with frames := (ρ.frames ++ [mf]) ++ rest } } B out := by
      simpa only [List.append_assoc, List.singleton_append] using h
    have hih := ih { r with running := some { ρ with frames := ρ.frames ++ [mf] } }
      { ρ with frames := ρ.frames ++ [mf] } rfl hp
      (fun mf2 hm2 => hmem mf2 (List.mem_cons_of_mem _ hm2)) B out h'
    have hstep := IterOK_step_other (wire_bytes_ne_nil _) hpe hih
    simpa only [List.map_cons, bytes_of_wires_cons, List.append_assoc] using hstep

theorem finalize_norm (e : AustinSample) (g : Bool) (mode : Option ByteStr)
    (mfs : List MojoFrame)
    (hmap : mfs.map mojoFrameToAustin = (framesListOf e).map normFrame)
    (hnil : mfs = [] ↔ framesListOf e = []) :
    finalize_sample (RunningSample.mk e.pid e.thread (some (e.iid.getD 0)) mfs
      (if mode = some strMemory then none else some (e.metrics.time.getD 0))
      (if mode = some strFull ∨ mode = some strMemory then some (e.metrics.memory.getD 0) else none)
      (if g then some true else none)
      (if mode = some strFull ∧ e.idle = some true then some true else none)) =
    normSample g mode e := by
  rw [finalize_sample, normSample]
  have hframes : (if mfs = [] then none else some (mfs.map mojoFrameToAustin)) =
      (match framesListOf e with
        | [] => none
        | f :: rest => some ((f :: rest).map normFrame)) := by
    cases hfe : framesListOf e with
    | nil =>
      rw [if_pos (hnil.mpr hfe)]
    | cons f rest =>
      rw [if_neg ?_]
      · rw [hmap, hfe]
      · intro hmfs
        rw [hfe] at hnil
        simp [hmfs] at hnil
  rw [hframes]
  have hmet : (AustinMetrics.mk
      (if mode = some strMemory then none else some (e.metrics.time.getD 0))
      (if mode = some strFull ∨ mode = some strMemory then some (e.metrics.memory.getD 0) else none)) =
      normMetrics mode e.metrics := by
    rw [normMetrics]
    by_cases hf : mode = some strFull
    · have hm : ¬ mode = some strMemory := by
        rw [hf]
        decide
      rw [if_pos hf, if_neg hm, if_pos (Or.inl hf)]
    · by_cases hm : mode = some strMemory
      · rw [if_neg hf, if_pos hm, if_pos hm, if_pos (Or.inr hm)]
      · rw [if_neg hf, if_neg hm, if_neg hm, if_neg ?_]
        intro hor
        cases hor with
        | inl h => exact hf h
        | inr h => exact hm h
  rw [← hmet]

theorem tail_sim (r : RState) (ρ : RunningSample) (g : Bool) (mode : Option ByteStr)
    (tv mv : Int) (idle : Option Bool) (hrun : r.running = some ρ) :
    ∀ B out,
      IterOK { r with running := some { ρ with
          gc := if g then some true else ρ.gc,
          idle := if mode = some strFull ∧ idle = some true then some true else ρ.idle,
          mtime := if mode = some strMemory then ρ.mtime else some tv,
          mmemory := if mode = some strFull ∨ mode = some strMemory then some mv else ρ.mmemory } } B out →
      IterOK r (bytes_of_wires ((if g then [Wire.gcW] else []) ++
        (if mode = some strFull then
          (if idle = some true then [Wire.idleW] else []) ++
            [Wire.metricW true tv, Wire.metricW false mv]
        else if mode = some strMemory then [Wire.metricW false mv]
        else [Wire.metricW true tv])) ++ B) out := by
  intro B out h
  by_cases hmf : mode = some strFull
  · have hmm : ¬ mode = some strMemory := by
      rw [hmf]
      decide
    have c1 : (mode = some strFull) = True := by simp only [hmf]
    have c2 : (mode = some strMemory) = False := by
      simp only [eq_iff_iff, iff_false]
      exact hmm
    by_cases hid : idle = some true
    · have c3 : (idle = some true) = True := by simp only [hid]
      by_cases hg : g
      · have c4 : (g = true) = True := by simp only [hg]
        simp only [c1, c2, c3, c4, true_and, and_true, if_true, if_false, true_or, or_true,
          false_or, or_false] at h ⊢
        simp only [bytes_of_wires_cons, bytes_of_wires_nil, List.append_nil,
          List.append_assoc, List.cons_append, List.nil_append]
        refine IterOK_step_other (wire_bytes_ne_nil _) (parse_event_gcW r ρ _ hrun) ?_
        refine IterOK_step_other (wire_bytes_ne_nil _) (parse_event_idleW _ _ _ rfl) ?_
        refine IterOK_step_other (wire_bytes_ne_nil _) (parse_event_metricW _ _ true tv _ rfl) ?_
        refine IterOK_step_other (wire_bytes_ne_nil _) (parse_event_metricW _ _ false mv _ rfl) ?_
        exact h
      · have c4 : (g = true) = False := by
          simp only [eq_iff_iff, iff_false]
          exact hg
        simp only [c1, c2, c3, c4, true_and, and_true, if_true, if_false, true_or, or_true,
          false_or, or_false] at h ⊢
        simp only [bytes_of_wires_cons, bytes_of_wires_nil, List.append_nil,
          List.append_assoc, List.cons_append, List.nil_append]
        refine IterOK_step_other (wire_bytes_ne_nil _) (parse_event_idleW r ρ _ hrun) ?_
        refine IterOK_step_other (wire_bytes_ne_nil _) (parse_event_metricW _ _ true tv _ rfl) ?_
        refine IterOK_step_other (wire_bytes_ne_nil _) (parse_event_metricW _ _ false mv _ rfl) ?_
        exact h
    · have c3 : (idle = some true) = False := by
        simp only [eq_iff_iff, iff_false]
        exact hid
      by_cases hg : g
      · have c4 : (g = true) = True := by simp only [hg]
        simp only [c1, c2, c3, c4, true_and, and_true, and_false, if_true, if_false,
          true_or, or_true, false_or, or_false] at h ⊢
        simp only [bytes_of_wires_cons, bytes_of_wires_nil, List.append_nil,
          List.append_assoc, List.cons_append, List.nil_append]
        refine IterOK_step_other (wire_bytes_ne_nil _) (parse_event_gcW r ρ _ hrun) ?_
        refine IterOK_step_other (wire_bytes_ne_nil _) (parse_event_metricW _ _ true tv _ rfl) ?_
        refine IterOK_step_other (wire_bytes_ne_nil _) (parse_event_metricW _ _ false mv _ rfl) ?_
        exact h
      · have c4 : (g = true) = False := by
          simp only [eq_iff_iff, iff_false]
          exact hg
        simp only [c1, c2, c3, c4, true_and, and_true, and_false, if_true, if_false,
          true_or, or_true, false_or, or_false] at h ⊢
        simp only [bytes_of_wires_cons, bytes_of_wires_nil, List.append_nil,
          List.append_assoc, List.cons_append, List.nil_append]
        refine IterOK_step_other (wire_bytes_ne_nil _) (parse_event_metricW r ρ true tv _ hrun) ?_
        refine IterOK_step_other (wire_bytes_ne_nil _) (parse_event_metricW _ _ false mv _ rfl) ?_
        exact h
  · have c1 : (mode = some strFull) = False := by
      simp only [eq_iff_iff, iff_false]
      exact hmf
    by_cases hmm : mode = some strMemory
    · have c2 : (mode = some strMemory) = True := by simp only [hmm]
      by_cases hg : g
      · have c4 : (g = true) = True := by simp only [hg]
        simp only [c1, c2, c4, true_and, false_and, and_true, if_true, if_false, true_or,
          or_true, false_or, or_false] at h ⊢
        simp only [bytes_of_wires_cons, bytes_of_wires_nil, List.append_nil,
          List.append_assoc, List.cons_append, List.nil_append]
        refine IterOK_step_other (wire_bytes_ne_nil _) (parse_event_gcW r ρ _ hrun) ?_
        refine IterOK_step_other (wire_bytes_ne_nil _) (parse_event_metricW _ _ false mv _ rfl) ?_
        exact h
      · have c4 : (g = true) = False := by
          simp only [eq_iff_iff, iff_false]
          exact hg
        simp only [c1, c2, c4, true_and, false_and, and_true, if_true, if_false, true_or,
          or_true, false_or, or_false] at h ⊢
        simp only [bytes_of_wires_cons, bytes_of_wires_nil, List.append_nil,
          List.append_assoc, List.cons_append, List.nil_append]
        refine IterOK_step_other (wire_bytes_ne_nil _) (parse_event_metricW r ρ false mv _ hrun) ?_
        exact h
    · have c2 : (mode = some strMemory) = False := by
        simp only [eq_iff_iff, iff_false]
        exact hmm
      by_cases hg : g
      · have c4 : (g = true) = True := by simp only [hg]
        simp only [c1, c2, c4, true_and, false_and, and_true, if_true, if_false, true_or,
          or_true, false_or, or_false] at h ⊢
        simp only [bytes_of_wires_cons, bytes_of_wires_nil, List.append_nil,
          List.append_assoc, List.cons_append, List.nil_append]
        refine IterOK_step_other (wire_bytes_ne_nil _) (parse_event_gcW r ρ _ hrun) ?_
        refine IterOK_step_other (wire_bytes_ne_nil _) (parse_event_metricW _ _ true tv _ rfl) ?_
        exact h
      · have c4 : (g = true) = False := by
          simp only [eq_iff_iff, iff_false]
          exact hg
        simp only [c1, c2, c4, true_and, false_and, and_true, if_true, if_false, true_or,
          or_true, false_or, or_false] at h ⊢
        simp only [bytes_of_wires_cons, bytes_of_wires_nil, List.append_nil,
          List.append_assoc, List.cons_append, List.nil_append]
        refine IterOK_step_other (wire_bytes_ne_nil _) (parse_event_metricW r ρ true tv _ hrun) ?_
        exact h

theorem stack_step_sim (r : RState) (pid iid : Int) (tid : ByteStr)
    (hver : r.version = 3) (ht : validStr tid)
    (hcons : r.running = none → r.samples = []) :
    ∀ B out, IterOK { r with
        running := some (RunningSample.mk pid tid (some iid) [] none none none none),
        samples := (match r.running with
          | some x => r.samples ++ [finalize_sample x]
          | none => r.samples) } B out →
      IterOK r (wire_bytes (.stackW pid iid tid) ++ B) (pendingOf r ++ out) := by
  intro B out h
  have hpe := parse_event_stackW r pid iid tid B hver ht
  have hstep := IterOK_step (wire_bytes_ne_nil _) hpe h
  have hemit : emit_of PEvent.stackEv { r with
      running := some (RunningSample.mk pid tid (some iid) [] none none none none),
      samples := (match r.running with
        | some x => r.samples ++ [finalize_sample x]
        | none => r.samples) } = pendingOf r := by
    rw [emit_of, pendingOf]
    cases hr0 : r.running with
    | some x =>
      simp only [List.getLast?_concat]
    | none =>
      simp only [hcons hr0]
      rfl
  rw [hemit] at hstep
  exact hstep

theorem write_sample_sim (p : Int) (w : WState) (r : RState) (e : AustinSample)
    (ws : List Wire) (w' : WState)
    (heq : write_event w (.sample e) = (ws, w'))
    (hver : r.version = 3) (hstr : SimInvStr p w r) (hfr : SimInvFr p w r)
    (hE : w.new_entries = [])
    (hcons : r.running = none → r.samples = [])
    (hv : validSample p e) :
    ∃ r' ρ',
      (∀ B out, IterOK r' B out → IterOK r (bytes_of_wires ws ++ B) (pendingOf r ++ out)) ∧
      r'.version = 3 ∧ SimInvStr p w' r' ∧ SimInvFr p w' r' ∧
      r'.running = some ρ' ∧ finalize_sample ρ' = normSample w.gcFlag w.mode e ∧
      w'.new_entries = [] ∧ w'.mode = w.mode ∧ w'.gcFlag = w.gcFlag ∧ w'.meta = w.meta := by
  obtain ⟨hpid, hvt, hvfr⟩ := hv
  rw [write_event] at heq
  obtain ⟨mfs, w1, h1⟩ : ∃ a b, resolve_frames w (framesListOf e) = (a, b) := ⟨_, _, rfl⟩
  simp only [h1] at heq
  cases heq
  obtain ⟨δ, r_d, hEd, hTd, hstr_d, hfr_d, hver_d, hrun_d, hsm_d, hmd_d, hmono_d, hF,
    hmode_d, hgc_d, hmeta_d⟩ :=
    resolve_frames_sim p (framesListOf e) w
      { r with
        running := some (RunningSample.mk e.pid e.thread (some (e.iid.getD 0)) [] none none none none),
        samples := (match r.running with
          | some x => r.samples ++ [finalize_sample x]
          | none => r.samples) }
      (RunningSample.mk e.pid e.thread (some (e.iid.getD 0)) [] none none none none)
      mfs w1 h1 hver rfl hpid hstr hfr hvfr
  have hδ : w1.new_entries = δ := by rw [hEd, hE, List.nil_append]
  have hrun_d' : r_d.running =
      some (RunningSample.mk e.pid e.thread (some (e.iid.getD 0)) [] none none none none) :=
    hrun_d.trans rfl
  have hregs : ∀ mf ∈ mfs, dictFind r_d.frame_map (p, mf.key) = some mf := by
    intro mf hm
    obtain ⟨f, hf⟩ := forall2_mem_right hF mf hm
    exact hf.1
  have hmapnil := forall2_norm (hF.imp (fun a b hab => hab.2))
  refine ⟨{ r_d with running := some (RunningSample.mk e.pid e.thread (some (e.iid.getD 0))
      ([] ++ mfs)
      (if w1.mode = some strMemory then none else some (e.metrics.time.getD 0))
      (if w1.mode = some strFull ∨ w1.mode = some strMemory then some (e.metrics.memory.getD 0) else none)
      (if w1.gcFlag then some true else none)
      (if w1.mode = some strFull ∧ e.idle = some true then some true else none)) },
    RunningSample.mk e.pid e.thread (some (e.iid.getD 0)) ([] ++ mfs)
      (if w1.mode = some strMemory then none else some (e.metrics.time.getD 0))
      (if w1.mode = some strFull ∨ w1.mode = some strMemory then some (e.metrics.memory.getD 0) else none)
      (if w1.gcFlag then some true else none)
      (if w1.mode = some strFull ∧ e.idle = some true then some true else none),
    ?_, hver_d.trans hver, hstr_d, hfr_d, rfl, ?_, rfl, hmode_d, hgc_d, hmeta_d⟩
  · intro B out h
    have t1 := tail_sim
      { r_d with running := some { (RunningSample.mk e.pid e.thread (some (e.iid.getD 0)) [] none none none none : RunningSample) with frames := ([] : List MojoFrame) ++ mfs } }
      { (RunningSample.mk e.pid e.thread (some (e.iid.getD 0)) [] none none none none : RunningSample) with frames := ([] : List MojoFrame) ++ mfs }
      w1.gcFlag w1.mode (e.metrics.time.getD 0) (e.metrics.memory.getD 0) e.idle rfl B out h
    simp only [bytes_of_wires_append, List.append_assoc] at t1
    have t2 := refs_sim p mfs r_d
      (RunningSample.mk e.pid e.thread (some (e.iid.getD 0)) [] none none none none)
      hrun_d' hpid hregs _ _ t1
    have t3 := hTd _ _ t2
    have t4 := stack_step_sim r e.pid (e.iid.getD 0) e.thread hver hvt hcons _ _ t3
    simp only [hδ, bytes_of_wires_cons, bytes_of_wires_append, List.append_assoc]
    exact t4
  · have hfin := finalize_norm e w1.gcFlag w1.mode mfs hmapnil.1 hmapnil.2
    rw [← hmode_d, ← hgc_d]
    exact hfin

theorem set_metadata_fields (w : WState) (n v : ByteStr) :
    (set_metadata w n v).strings = w.strings ∧ (set_metadata w n v).frames = w.frames ∧
    (set_metadata w n v).new_entries = w.new_entries ∧
    (set_metadata w n v).mode = (if n = strMode then some v else w.mode) ∧
    (set_metadata w n v).gcFlag = (w.gcFlag || (decide (n = strGc) && decide (v = strOn))) := by
  rw [set_metadata]
  by_cases h1 : n = strGc ∧ v = strOn
  · rw [if_pos h1]
    obtain ⟨hn, hv⟩ := h1
    have hnm : ¬ n = strMode := by
      rw [hn]
      decide
    refine ⟨rfl, rfl, rfl, by rw [if_neg hnm], ?_⟩
    rw [hn, hv]
    simp
  · rw [if_neg h1]
    have hb : (decide (n = strGc) && decide (v = strOn)) = false := by
      by_contra hb
      rw [Bool.not_eq_false, Bool.and_eq_true, decide_eq_true_eq, decide_eq_true_eq] at hb
      exact h1 hb
    by_cases h2 : n = strMode
    · rw [if_pos h2]
      refine ⟨rfl, rfl, rfl, by rw [if_pos h2], ?_⟩
      rw [hb, Bool.or_false]
    · rw [if_neg h2]
      refine ⟨rfl, rfl, rfl, by rw [if_neg h2], ?_⟩
      rw [hb, Bool.or_false]

theorem write_metas_sim (p : Int) : ∀ (metas : List AustinMetadata) (w : WState) (r : RState)
    (ws : List Wire) (w' : WState),
    write_events w (metas.map AustinEvent.metadata) = (ws, w') →
    (∀ m ∈ metas, validStr m.name ∧ validStr m.value) →
    ∃ r', (∀ B out, IterOK r' B out →
        IterOK r (bytes_of_wires ws ++ B) (metas.map AustinEvent.metadata ++ out)) ∧
      r'.version = r.version ∧ r'.string_map = r.string_map ∧ r'.frame_map = r.frame_map ∧
      r'.running = r.running ∧ r'.samples = r.samples ∧
      w'.strings = w.strings ∧ w'.frames = w.frames ∧ w'.new_entries = w.new_entries ∧
      w'.mode = metas.foldl (fun acc m => if m.name = strMode then some m.value else acc) w.mode ∧
      w'.gcFlag = metas.foldl (fun acc m => acc || (decide (m.name = strGc) && decide (m.value = strOn))) w.gcFlag := by
  intro metas
  induction metas with
  | nil =>
    intro w r ws w' heq hval
    rw [List.map_nil, write_events] at heq
    cases heq
    refine ⟨r, ?_, rfl, rfl, rfl, rfl, rfl, rfl, rfl, rfl, rfl, rfl⟩
    intro B out h
    simpa only [bytes_of_wires_nil, List.nil_append, List.map_nil] using h
  | cons m rest ih =>
    intro w r ws w' heq hval
    rw [List.map_cons, write_events] at heq
    obtain ⟨ws2, w2, h2⟩ : ∃ a b,
        write_events (set_metadata w m.name m.value) (rest.map AustinEvent.metadata) = (a, b) :=
      ⟨_, _, rfl⟩
    simp only [write_event, h2] at heq
    cases heq
    obtain ⟨r2, hT2, hver2, hsm2, hfm2, hrun2, hsmp2, hstr2, hfr2, hE2, hmode2, hgc2⟩ :=
      ih (set_metadata w m.name m.value) { r with metadata := dictSet r.metadata m.name m.value }
        ws2 w' h2 (fun x hx => hval x (List.mem_cons_of_mem _ hx))
    obtain ⟨hsf1, hsf2, hsf3, hsf4, hsf5⟩ := set_metadata_fields w m.name m.value
    refine ⟨r2, ?_, hver2, hsm2, hfm2, hrun2, hsmp2, hstr2.trans hsf1, hfr2.trans hsf2,
      hE2.trans hsf3, ?_, ?_⟩
    · intro B out h
      have hme := hval m (List.mem_cons_self _ _)
      have hstep := IterOK_step (wire_bytes_ne_nil _)
        (parse_event_metadataW r m.name m.value (bytes_of_wires ws2 ++ B) hme.1 hme.2)
        (hT2 _ _ h)
      simp only [List.map_cons, bytes_of_wires_append, bytes_of_wires_cons,
        bytes_of_wires_nil, List.append_nil, List.append_assoc]
      exact hstep
    · rw [List.foldl_cons, hmode2, hsf4]
    · rw [List.foldl_cons, hgc2, hsf5]

theorem write_samples_sim (p : Int) : ∀ (samples : List AustinSample) (w : WState) (r : RState)
    (ws : List Wire) (w' : WState),
    write_events w (samples.map AustinEvent.sample) = (ws, w') →
    r.version = 3 → SimInvStr p w r → SimInvFr p w r →
    w.new_entries = [] → (r.running = none → r.samples = []) →
    (∀ s ∈ samples, validSample p s) →
    IterOK r (bytes_of_wires ws)
      (pendingOf r ++ samples.map (fun s => AustinEvent.sample (normSample w.gcFlag w.mode s))) := by
  intro samples
  induction samples with
  | nil =>
    intro w r ws w' heq hver hstr hfr hE hcons hval
    rw [List.map_nil, write_events] at heq
    cases heq
    simpa only [bytes_of_wires_nil, List.map_nil, List.append_nil] using IterOK_nil r
  | cons s rest ih =>
    intro w r ws w' heq hver hstr hfr hE hcons hval
    rw [List.map_cons, write_events] at heq
    obtain ⟨ws1, w1, h1⟩ : ∃ a b, write_event w (.sample s) = (a, b) := ⟨_, _, rfl⟩
    obtain ⟨ws2, w2, h2⟩ : ∃ a b, write_events w1 (rest.map AustinEvent.sample) = (a, b) :=
      ⟨_, _, rfl⟩
    simp only [h1, h2] at heq
    cases heq
    obtain ⟨r1, ρ1, hT1, hver1, hstr1, hfr1, hrun1, hfin1, hE1, hmode1, hgc1, hmeta1⟩ :=
      write_sample_sim p w r s ws1 w1 h1 hver hstr hfr hE hcons
        (hval s (List.mem_cons_self _ _))
    have hih := ih w1 r1 ws2 w' h2 hver1 hstr1 hfr1 hE1
      (fun hn => absurd (hrun1.symm.trans hn) (by simp))
      (fun x hx => hval x (List.mem_cons_of_mem _ hx))
    have hpend : pendingOf r1 = [AustinEvent.sample (normSample w.gcFlag w.mode s)] := by
      simp only [pendingOf, hrun1, hfin1]
    simp only [hpend, hmode1, hgc1] at hih
    have htot := hT1 _ _ hih
    simp only [bytes_of_wires_append, List.map_cons]
    exact htot

theorem write_events_append : ∀ (l1 : List AustinEvent) (w : WState) (l2 : List AustinEvent),
    write_events w (l1 ++ l2) =
      ((write_events w l1).1 ++ (write_events (write_events w l1).2 l2).1,
       (write_events (write_events w l1).2 l2).2) := by
  intro l1
  induction l1 with
  | nil =>
    intro w l2
    simp only [List.nil_append, write_events]
  | cons e rest ih =>
    intro w l2
    obtain ⟨ws1, w1, h1⟩ : ∃ a b, write_event w e = (a, b) := ⟨_, _, rfl⟩
    obtain ⟨ws2, w2, h2⟩ : ∃ a b, write_events w1 rest = (a, b) := ⟨_, _, rfl⟩
    simp only [List.cons_append, write_events, h1, h2, List.append_eq, ih w1, List.append_assoc]

theorem SimInvStr_init (p v : Int) : SimInvStr p initW (initR v) := by
  refine ⟨⟨[], rfl⟩, ⟨rfl, rfl, rfl, rfl, trivial⟩, ?_, ?_⟩
  · intro pr hpr hk2
    simp only [initW, List.mem_cons, List.not_mem_nil, or_false] at hpr
    rcases hpr with h | h
    · rw [h] at hk2
      exact absurd hk2 (by decide)
    · rw [h] at hk2
      exact absurd hk2 (by decide)
  · intro k t h
    exact Option.noConfusion h

theorem SimInvFr_init (p v : Int) : SimInvFr p initW (initR v) := by
  refine ⟨trivial, ?_, ?_, ?_⟩
  · intro pr hpr
    exact absurd hpr (List.not_mem_nil pr)
  · intro pr hpr
    exact absurd hpr (List.not_mem_nil pr)
  · intro k t h
    exact Option.noConfusion h

theorem SimInvStr_congr {p : Int} {w w2 : WState} {r r2 : RState} (h : SimInvStr p w r)
    (hw : w2.strings = w.strings) (hr : r2.string_map = r.string_map) :
    SimInvStr p w2 r2 := by
  unfold SimInvStr
  simp only [hw, hr]
  exact h

theorem SimInvFr_congr {p : Int} {w w2 : WState} {r r2 : RState} (h : SimInvFr p w r)
    (hw : w2.frames = w.frames) (hr : r2.frame_map = r.frame_map) :
    SimInvFr p w2 r2 := by
  unfold SimInvFr
  simp only [hw, hr]
  exact h

theorem decode_stream_header (bs : List Nat) :
    decode_stream ([77, 79, 74, 3] ++ bs) = iter_events_fuel (bs.length + 1) (initR 3) bs := by
  show decode_stream (77 :: 79 :: 74 :: 3 :: bs) = _
  have h3 : read_int (3 :: bs) = some (3, bs) := by
    have h := read_int_to_varint_spec 3 bs
    have ht : to_varint 3 ++ bs = 3 :: bs := by
      simp [to_varint, to_varint_tail]
    rw [ht] at h
    exact h
  simp only [decode_stream, h3]

theorem roundtrip_norm (p : Int) (metas : List AustinMetadata) (samples : List AustinSample)
    (hm : ∀ m ∈ metas, validStr m.name ∧ validStr m.value)
    (hs : ∀ s ∈ samples, validSample p s) :
    decode_stream (encode_events
        (metas.map AustinEvent.metadata ++ samples.map AustinEvent.sample)) =
      some (metas.map AustinEvent.metadata ++
        samples.map (fun s => AustinEvent.sample (normSample (gcOnOf metas) (modeOf metas) s))) := by
  obtain ⟨wsM, wM, hM⟩ : ∃ a b, write_events initW (metas.map AustinEvent.metadata) = (a, b) :=
    ⟨_, _, rfl⟩
  obtain ⟨wsS, wS, hS⟩ : ∃ a b, write_events wM (samples.map AustinEvent.sample) = (a, b) :=
    ⟨_, _, rfl⟩
  have hall : write_events initW
      (metas.map AustinEvent.metadata ++ samples.map AustinEvent.sample) = (wsM ++ wsS, wS) := by
    rw [write_events_append]
    simp only [hM, hS]
  rw [encode_events, hall]
  rw [decode_stream_header]
  obtain ⟨r1, hT1, hver1, hsm1, hfm1, hrun1, hsmp1, hstr1, hfr1, hE1, hmode1, hgc1⟩ :=
    write_metas_sim p metas initW (initR 3) wsM wM hM hm
  have hver1' : r1.version = 3 := hver1.trans rfl
  have hstrI : SimInvStr p wM r1 := SimInvStr_congr (SimInvStr_init p 3) hstr1 hsm1
  have hfrI : SimInvFr p wM r1 := SimInvFr_congr (SimInvFr_init p 3) hfr1 hfm1
  have hsamp := write_samples_sim p samples wM r1 wsS wS hS hver1' hstrI hfrI
    (hE1.trans rfl) (fun _ => hsmp1.trans rfl) hs
  have hrun1' : r1.running = none := hrun1.trans rfl
  have hpend1 : pendingOf r1 = [] := by simp only [pendingOf, hrun1']
  have hgcM : wM.gcFlag = gcOnOf metas := hgc1.trans rfl
  have hmodeM : wM.mode = modeOf metas := hmode1.trans rfl
  simp only [hpend1, List.nil_append, hgcM, hmodeM] at hsamp
  have htot := hT1 _ _ hsamp
  rw [bytes_of_wires_append]
  exact htot _ (Nat.lt_succ_self _)

theorem cntFrameDefsKey_append (k : Int) (l1 l2 : List Wire) :
    cntFrameDefsKey k (l1 ++ l2) = cntFrameDefsKey k l1 + cntFrameDefsKey k l2 :=
  List.countP_append _ _ _

theorem cntFrameRefsKey_append (k : Int) (l1 l2 : List Wire) :
    cntFrameRefsKey k (l1 ++ l2) = cntFrameRefsKey k l1 + cntFrameRefsKey k l2 :=
  List.countP_append _ _ _

theorem cntFrameDefs_append (l1 l2 : List Wire) :
    cntFrameDefs (l1 ++ l2) = cntFrameDefs l1 + cntFrameDefs l2 :=
  List.countP_append _ _ _

theorem defs_before_use_append : ∀ (l1 : List Wire) (a b : Int) (l2 : List Wire),
    defs_before_use a b (l1 ++ l2) =
      (defs_before_use a b l1 &&
        defs_before_use (l1.foldl dbuStep (a, b)).1 (l1.foldl dbuStep (a, b)).2 l2) := by
  intro l1
  induction l1 with
  | nil =>
    intro a b l2
    simp [defs_before_use]
  | cons x rest ih =>
    intro a b l2
    cases x <;>
      simp [defs_before_use, dbuStep, List.cons_append, ih, Bool.and_assoc]

theorem resolve_string_counts (w : WState) (v : ByteStr) (b : Int)
    (hnum : strNumbered 0 w.strings) :
    ∃ δ, (resolve_string w v).2.new_entries = w.new_entries ++ δ ∧
      (∀ k, cntFrameDefsKey k δ = 0) ∧ (∀ k, cntFrameRefsKey k δ = 0) ∧
      cntFrameDefs δ = 0 ∧
      defs_before_use (w.strings.length : Int) b δ = true ∧
      δ.foldl dbuStep ((w.strings.length : Int), b) =
        (((resolve_string w v).2.strings.length : Int), b) ∧
      (resolve_string w v).2.frames = w.frames ∧
      (resolve_string w v).2.mode = w.mode ∧
      (resolve_string w v).2.gcFlag = w.gcFlag ∧
      0 ≤ (resolve_string w v).1.key ∧
      (resolve_string w v).1.key < ((resolve_string w v).2.strings.length : Int) ∧
      w.strings.length ≤ (resolve_string w v).2.strings.length ∧
      strNumbered 0 (resolve_string w v).2.strings := by
  cases hd : dictFind w.strings v with
  | some s =>
    have hres : resolve_string w v = (s, w) := by rw [resolve_string, hd]
    rw [hres]
    have hb := strNumbered_bounds w.strings 0 hnum (v, s) (dictFind_mem hd)
    simp only at hb
    push_cast at hb
    refine ⟨[], by simp, fun k => rfl, fun k => rfl, rfl, rfl, rfl, rfl, rfl, rfl,
      ?_, ?_, le_refl _, hnum⟩
    · simp only
      omega
    · simp only
      omega
  | none =>
    have hres : resolve_string w v = (MojoString.mk (w.strings.length : Int) v,
        { w with strings := dictSet w.strings v (MojoString.mk (w.strings.length : Int) v),
                 new_entries := w.new_entries ++ [.stringW (w.strings.length : Int) v] }) := by
      rw [resolve_string, hd]
    rw [hres]
    have habs := dictSet_absent w.strings v (MojoString.mk (w.strings.length : Int) v) hd
    refine ⟨[.stringW (w.strings.length : Int) v], rfl, fun k => rfl, fun k => rfl, rfl,
      ?_, ?_, rfl, rfl, rfl, ?_, ?_, ?_, ?_⟩
    · simp [defs_before_use]
    · simp only [List.foldl_cons, List.foldl_nil, dbuStep, habs, List.length_append,
        List.length_singleton]
      rw [Prod.mk.injEq]
      constructor
      · push_cast
        ring
      · rfl
    · positivity
    · simp only [habs, List.length_append, List.length_singleton]
      push_cast
      omega
    · simp only [habs, List.length_append, List.length_singleton]
      omega
    · rw [habs]
      have := strNumbered_append w.strings 0 v hnum
      simpa using this

theorem interning_core (f : AustinFrame) (s1 s2 : AustinSample)
    (h1 : framesListOf s1 = [f]) (h2 : framesListOf s2 = [f]) :
    cntFrameDefsKey 0 (write_events initW [AustinEvent.sample s1, AustinEvent.sample s2]).1 = 1 ∧
    cntFrameRefsKey 0 (write_events initW [AustinEvent.sample s1, AustinEvent.sample s2]).1 = 2 ∧
    cntFrameDefs (write_events initW [AustinEvent.sample s1, AustinEvent.sample s2]).1 = 1 ∧
    defs_before_use 2 0 (write_events initW [AustinEvent.sample s1, AustinEvent.sample s2]).1 = true := by
  obtain ⟨fs1, wA, hA⟩ : ∃ a b, resolve_string initW f.filename = (a, b) := ⟨_, _, rfl⟩
  obtain ⟨ss1, wB, hB⟩ : ∃ a b, resolve_string wA f.function = (a, b) := ⟨_, _, rfl⟩
  have hnumI : strNumbered 0 initW.strings := ⟨rfl, rfl, rfl, rfl, trivial⟩
  obtain ⟨δA, hEA, hdA, hrA, hcA, hbA, hfoldA, hfrA, hmoA, hgcA, hkA0, hkA1, hlenA, hnumA⟩ :=
    resolve_string_counts initW f.filename 0 hnumI
  rw [hA] at hEA hfoldA hfrA hmoA hgcA hkA0 hkA1 hlenA hnumA
  simp only at hEA hfoldA hfrA hmoA hgcA hkA0 hkA1 hlenA hnumA
  obtain ⟨δB, hEB, hdB, hrB, hcB, hbB, hfoldB, hfrB, hmoB, hgcB, hkB0, hkB1, hlenB, hnumB⟩ :=
    resolve_string_counts wA f.function 0 hnumA
  rw [hB] at hEB hfoldB hfrB hmoB hgcB hkB0 hkB1 hlenB hnumB
  simp only at hEB hfoldB hfrB hmoB hgcB hkB0 hkB1 hlenB hnumB
  have hEA' : wA.new_entries = δA := hEA.trans rfl
  have hEB' : wB.new_entries = δA ++ δB := by rw [hEB, hEA']
  have hfr0 : wB.frames = [] := (hfrB.trans hfrA).trans rfl
  have hgc0 : wB.gcFlag = false := (hgcB.trans hgcA).trans rfl
  have hmo0 : wB.mode = (none : Option ByteStr) := (hmoB.trans hmoA).trans rfl
  have hHit : dictFind (dictSet wB.frames f
      (MojoFrame.mk (0 : Int) fs1 ss1 f.line (some (f.line_end.getD 0))
        (some (f.column.getD 0)) (some (f.column_end.getD 0)))) f =
      some (MojoFrame.mk (0 : Int) fs1 ss1 f.line (some (f.line_end.getD 0))
        (some (f.column.getD 0)) (some (f.column_end.getD 0))) := by
    rw [hfr0]
    simp [dictSet, dictFind]
  simp only [write_events, write_event, h1, h2, resolve_frames, resolve_frame,
    show dictFind initW.frames f = (none : Option MojoFrame) from rfl,
    show dictFind ([] : List (AustinFrame × MojoFrame)) f = (none : Option MojoFrame) from rfl,
    hA, hB, hHit,
    List.map_cons, List.map_nil, hEB', hgc0, hmo0, Bool.false_eq_true, if_false,
    reduceCtorEq, List.append_nil, List.nil_append,
    show initW.frames = ([] : List (AustinFrame × MojoFrame)) from rfl, List.length_nil,
    Nat.cast_zero]
  have hbA2 : defs_before_use 2 0 δA = true := hbA
  have hfoldA2 : List.foldl dbuStep ((2 : Int), 0) δA = ((wA.strings.length : Int), 0) := hfoldA
  refine ⟨?_, ?_, ?_, ?_⟩
  · simp only [cntFrameDefsKey] at hdA hdB ⊢
    simp [List.countP_cons, List.countP_append, List.countP_nil, hdA, hdB]
  · simp only [cntFrameRefsKey] at hrA hrB ⊢
    simp [List.countP_cons, List.countP_append, List.countP_nil, hrA, hrB]
  · simp only [cntFrameDefs] at hcA hcB ⊢
    simp [List.countP_cons, List.countP_append, List.countP_nil, hcA, hcB]
  · simp only [defs_before_use]
    simp only [List.append_eq, List.append_assoc]
    rw [defs_before_use_append δA]
    simp only [hbA2, hfoldA2, Bool.true_and]
    rw [defs_before_use_append δB]
    simp only [hbB, hfoldB, Bool.true_and]
    simp only [defs_before_use, List.cons_append, List.nil_append, List.singleton_append,
      List.append_nil]
    simp only [Bool.and_eq_true, decide_eq_true_eq]
    have hle : ((wA.strings.length : Nat) : Int) ≤ ((wB.strings.length : Nat) : Int) := by
      exact_mod_cast hlenB
    refine ⟨⟨⟨trivial, hkA0, by omega⟩, hkB0, hkB1⟩, ⟨le_refl _, by omega⟩,
      ⟨le_refl _, by omega⟩, trivial⟩

/-- C1 (amended): encoding metadata events followed by samples of one pid,
with codec-valid strings (no NUL, at most 1024 bytes) and frames whose
filename and function are nonempty, then decoding, returns the metadata
unchanged and each sample normalized: an absent iid decodes as 0, frame end
locations decode as explicit zeros, gc is on exactly when the gc metadata
flag was on, idle survives only as true and only in full mode, and only the
metrics the mode writes are populated (absent written values becoming 0). -/
theorem mojo_roundtrip (p : Int) (metas : List AustinMetadata) (samples : List AustinSample)
    (hm : ∀ m ∈ metas, validStr m.name ∧ validStr m.value)
    (hs : ∀ s ∈ samples, validSample p s) :
    decode_stream (encode_events
        (metas.map AustinEvent.metadata ++ samples.map AustinEvent.sample)) =
      some (metas.map AustinEvent.metadata ++
        samples.map (fun s => AustinEvent.sample (normSample (gcOnOf metas) (modeOf metas) s))) :=
  roundtrip_norm p metas samples hm hs

/-- C1 counterexample: a sample with an absent interpreter id does not decode
back to itself — the reader reconstructs iid as 0 — so the write/decode round
trip is not the claimed identity on samples. -/
theorem mojo_roundtrip_counterexample :
    decode_stream (encode_events [AustinEvent.sample cSample1]) ≠
      some [AustinEvent.sample cSample1] := by
  have h := roundtrip_norm 5 [] [cSample1] (by decide) (by decide)
  simp only [List.map_nil, List.map_cons, List.nil_append] at h
  rw [h]
  decide

/-- C1 witness: the amended round trip at a concrete mode metadata plus one
concrete sample with a frame. -/
theorem mojo_roundtrip_witness :
    (∀ m ∈ [cMeta1], validStr m.name ∧ validStr m.value) ∧
    (∀ s ∈ [cSample2], validSample 5 s) ∧
    decode_stream (encode_events
        ([cMeta1].map AustinEvent.metadata ++ [cSample2].map AustinEvent.sample)) =
      some ([cMeta1].map AustinEvent.metadata ++
        [cSample2].map (fun s => AustinEvent.sample
          (normSample (gcOnOf [cMeta1]) (modeOf [cMeta1]) s))) :=
  ⟨by decide, by decide, mojo_roundtrip 5 [cMeta1] [cSample2] (by decide) (by decide)⟩

/-- C8 (amended): writing two samples whose frame lists are the same single
frame — identical on every AustinFrame field, since the interning table keys
on the whole frame, not just (filename, function, line) — emits exactly one
Frame definition (it gets key 0), exactly two Frame references to it, one per
occurrence, and the wire output defines every new string and frame before the
first reference that needs it. -/
theorem interning_uniqueness (f : AustinFrame) (s1 s2 : AustinSample)
    (h1 : framesListOf s1 = [f]) (h2 : framesListOf s2 = [f]) :
    cntFrameDefsKey 0 (write_events initW [AustinEvent.sample s1, AustinEvent.sample s2]).1 = 1 ∧
    cntFrameRefsKey 0 (write_events initW [AustinEvent.sample s1, AustinEvent.sample s2]).1 = 2 ∧
    cntFrameDefs (write_events initW [AustinEvent.sample s1, AustinEvent.sample s2]).1 = 1 ∧
    defs_before_use 2 0 (write_events initW [AustinEvent.sample s1, AustinEvent.sample s2]).1 = true :=
  interning_core f s1 s2 h1 h2

/-- C8 counterexample: two frames equal on filename, function and line but
differing in column are interned as different frames, so two samples carrying
them produce two Frame definition events, not the single one claimed. -/
theorem interning_uniqueness_counterexample :
    cFrame2.filename = cFrameB.filename ∧ cFrame2.function = cFrameB.function ∧
    cFrame2.line = cFrameB.line ∧
    cntFrameDefs (write_events initW
      [AustinEvent.sample cSampleA, AustinEvent.sample cSampleB]).1 = 2 := by
  decide

/-- C8 witness: the amended interning statement at one concrete frame shared
by two concrete samples. -/
theorem interning_uniqueness_witness :
    framesListOf cSampleA = [cFrame2] ∧
    (cntFrameDefsKey 0 (write_events initW [AustinEvent.sample cSampleA, AustinEvent.sample cSampleA]).1 = 1 ∧
     cntFrameRefsKey 0 (write_events initW [AustinEvent.sample cSampleA, AustinEvent.sample cSampleA]).1 = 2 ∧
     cntFrameDefs (write_events initW [AustinEvent.sample cSampleA, AustinEvent.sample cSampleA]).1 = 1 ∧
     defs_before_use 2 0 (write_events initW [AustinEvent.sample cSampleA, AustinEvent.sample cSampleA]).1 = true) :=
  ⟨by decide, interning_uniqueness cFrame2 cSampleA cSampleA (by decide) (by decide)⟩

end Mojo

end AustinPy
